import Mathlib

/-!
# Plasma control system: pressure acquisition and stepper actuation

A shallow embedding of `src/main.c` (ATmega firmware).  The I/O registers are
natural numbers kept below 256, the `uint32_t` arithmetic is reduced modulo
`2^32`, and every access to a pin is recorded in a trace (most recent access
first).  The data register `PINC` is an input: the model is given the list of
values it will show on successive reads, and a read that finds the list empty
never returns.  The static locals of `filtered_avg` are a state of their own,
which no other function can reach.

The `float` variable `pressure_kpa` is carried through the control loop as
the exact rational `diff / SCALE_FACTOR`: there the conversion of `diff`, the
division by `SCALE_FACTOR` and the product by `10` are not rounded.  The
binary32 number that line 215 stores on the AVR target, where `float` and
`double` are both IEEE 754 binary32, is `pressure_f32`; the section on the
pressure computation bounds the distance between the two.  Delays are events
of the trace.  The UART receiver of `rs485_readln` is the list of bytes it
will deliver.
-/

namespace PlasmaControl

/-! ## Pins (bit numbers from `avr/io.h`) and constants -/

def LCD_RS : Nat := 4
def LCD_RW : Nat := 3
def LCD_E : Nat := 2
def LCD_D4 : Nat := 1
def LCD_D5 : Nat := 0
def LCD_D6 : Nat := 7
def LCD_D7 : Nat := 6

def HX_SCK : Nat := 4
def HX_DT1 : Nat := 2
def HX_DT2 : Nat := 3

def MOTOR_STEP_PD : Nat := 3
def MOTOR_DIR_PC : Nat := 5
def MOTOR_ENA_PC : Nat := 0

def SCALE_FACTOR : ℚ := 10000

def FILTER_DEPTH : Nat := 8

/-! ## Hardware state -/

/-- One access to the hardware, in program order. -/
inductive Event where
  | outB (v : Nat)
  | outC (v : Nat)
  | outD (v : Nat)
  | inC (v : Nat)
  | delay_us (n : Nat)
  | delay_ms (n : Nat)
  deriving DecidableEq

/-- The I/O registers, the future values of `PINC`, and the trace so far, most
recent event first. -/
structure Hw where
  portb : Nat
  portc : Nat
  portd : Nat
  ddrb : Nat
  ddrc : Nat
  ddrd : Nat
  pinc : List Nat
  trace : List Event
  deriving DecidableEq

/-- The static locals of `filtered_avg`: `buffer1[FILTER_DEPTH]` and `i1`. -/
structure Filter where
  buffer1 : List Nat
  i1 : Nat
  deriving DecidableEq

/-- The value of `REG | (1 << bit)` stored back in an 8-bit register. -/
def reg_set (reg bit : Nat) : Nat := (reg ||| (1 <<< bit)) % 256

/-- The value of `REG & ~(1 << bit)` stored back in an 8-bit register; the
complement is taken in the 16-bit `int`. -/
def reg_clear (reg bit : Nat) : Nat := (reg &&& (0xFFFF ^^^ (1 <<< bit))) % 256

def write_portb (h : Hw) (v : Nat) : Hw :=
  { h with portb := v, trace := Event.outB v :: h.trace }

def write_portc (h : Hw) (v : Nat) : Hw :=
  { h with portc := v, trace := Event.outC v :: h.trace }

def write_portd (h : Hw) (v : Nat) : Hw :=
  { h with portd := v, trace := Event.outD v :: h.trace }

def delay_us (h : Hw) (n : Nat) : Hw :=
  { h with trace := Event.delay_us n :: h.trace }

def delay_ms (h : Hw) (n : Nat) : Hw :=
  { h with trace := Event.delay_ms n :: h.trace }

/-- One read of `PINC`. -/
def read_pinc (h : Hw) : Option (Nat × Hw) :=
  match h.pinc with
  | [] => none
  | v :: rest => some (v, { h with pinc := rest, trace := Event.inC v :: h.trace })

/-! ## HX710B channel reader (`main.c` lines 142-163) -/

def hx710b_init (h : Hw) : Hw :=
  let h := { h with ddrc := reg_set h.ddrc HX_SCK }
  let h := { h with ddrc := (h.ddrc &&& (0xFFFF ^^^ ((1 <<< HX_DT1) ||| (1 <<< HX_DT2)))) % 256 }
  write_portc h (reg_clear h.portc HX_SCK)

/-- The busy-wait `while (PINC & (1 << dout_pin));` run over the coming values
of `PINC`: the values left after the loop and the reads it made. -/
def hx710b_wait (dout_pin : Nat) : List Nat → List Event → Option (List Nat × List Event)
  | [], _ => none
  | v :: rest, tr =>
    if v &&& (1 <<< dout_pin) ≠ 0 then hx710b_wait dout_pin rest (Event.inC v :: tr)
    else some (rest, Event.inC v :: tr)

/-- One pass of the body of the `for` loop of `hx710b_read`. -/
def hx710b_bit (dout_pin : Nat) (value : Nat) (h : Hw) : Option (Nat × Hw) :=
  let h := write_portc h (reg_set h.portc HX_SCK)
  let value := (value <<< 1) % 2 ^ 32
  match read_pinc h with
  | none => none
  | some (p, h) =>
    let value := if p &&& (1 <<< dout_pin) ≠ 0 then (value + 1) % 2 ^ 32 else value
    some (value, write_portc h (reg_clear h.portc HX_SCK))

/-- The `for` loop of `hx710b_read`, `n` passes. -/
def hx710b_bits (dout_pin : Nat) : Nat → Nat → Hw → Option (Nat × Hw)
  | 0, value, h => some (value, h)
  | n + 1, value, h =>
    match hx710b_bit dout_pin value h with
    | none => none
    | some (value, h) => hx710b_bits dout_pin n value h

/-- Line 160: `value ^= 0x800000`. -/
def sign_flip (value : Nat) : Nat := value ^^^ 0x800000

/-- The function `hx710b_read(dout_pin)`. -/
def hx710b_read (h : Hw) (dout_pin : Nat) : Option (Nat × Hw) :=
  match hx710b_wait dout_pin h.pinc h.trace with
  | none => none
  | some (rest, tr) =>
    match hx710b_bits dout_pin 24 0 { h with pinc := rest, trace := tr } with
    | none => none
    | some (value, h) =>
      let h := write_portc h (reg_set h.portc HX_SCK)
      let value := sign_flip value
      let h := write_portc h (reg_clear h.portc HX_SCK)
      some (value, h)

/-! ## Moving-average filter (`main.c` lines 166-177) -/

/-- The function `filtered_avg(pin)`. -/
def filtered_avg (f : Filter) (h : Hw) (pin : Nat) : Option (Nat × Filter × Hw) :=
  match hx710b_read h pin with
  | none => none
  | some (code, h) =>
    let buffer1 := f.buffer1.set f.i1 code
    let i1 := (f.i1 + 1) % FILTER_DEPTH
    let sum := (List.range FILTER_DEPTH).foldl
      (fun sum i => (sum + buffer1.getD i 0) % 2 ^ 32) 0
    some (sum / FILTER_DEPTH, { buffer1 := buffer1, i1 := i1 }, h)

/-- The filter state at program start: `buffer1 = {0}`, `i1 = 0`. -/
def Filter.init : Filter := { buffer1 := List.replicate FILTER_DEPTH 0, i1 := 0 }

/-! ## LCD output (`main.c` lines 33-39 and 90-140) -/

def lcd_enable (h : Hw) : Hw :=
  let h := write_portb h (reg_set h.portb LCD_E)
  let h := delay_us h 1
  let h := write_portb h (reg_clear h.portb LCD_E)
  delay_us h 100

def lcd_send_nibble (h : Hw) (nibble : Nat) : Hw :=
  let nibble := nibble % 256
  let h := write_portb h
    (((h.portb &&& (0xFFFF ^^^ ((1 <<< LCD_D4) ||| (1 <<< LCD_D5)))) |||
      ((nibble &&& 0x01) <<< LCD_D4) ||| ((nibble &&& 0x02) <<< LCD_D5)) % 256)
  let h := write_portd h
    (((h.portd &&& (0xFFFF ^^^ ((1 <<< LCD_D6) ||| (1 <<< LCD_D7)))) |||
      ((nibble &&& 0x04) <<< (LCD_D6 - 2)) ||| ((nibble &&& 0x08) <<< (LCD_D7 - 3))) % 256)
  lcd_enable h

def lcd_command (h : Hw) (cmd : Nat) : Hw :=
  let cmd := cmd % 256
  let h := write_portb h (reg_clear h.portb LCD_RS)
  let h := lcd_send_nibble h (cmd >>> 4)
  let h := lcd_send_nibble h (cmd &&& 0x0F)
  delay_ms h 2

def lcd_data (h : Hw) (data : Nat) : Hw :=
  let data := data % 256
  let h := write_portb h (reg_set h.portb LCD_RS)
  let h := lcd_send_nibble h (data >>> 4)
  let h := lcd_send_nibble h (data &&& 0x0F)
  delay_ms h 2

def lcd_init (h : Hw) : Hw :=
  let h := { h with ddrb := (h.ddrb ||| ((1 <<< LCD_RS) ||| (1 <<< LCD_RW) ||| (1 <<< LCD_E) |||
    (1 <<< LCD_D4) ||| (1 <<< LCD_D5))) % 256 }
  let h := { h with ddrd := (h.ddrd ||| ((1 <<< LCD_D6) ||| (1 <<< LCD_D7))) % 256 }
  let h := write_portb h (reg_clear h.portb LCD_RW)
  let h := delay_ms h 40
  let h := delay_ms (lcd_send_nibble h 0x03) 5
  let h := delay_us (lcd_send_nibble h 0x03) 150
  let h := delay_us (lcd_send_nibble h 0x03) 150
  let h := delay_us (lcd_send_nibble h 0x02) 150
  let h := lcd_command h 0x28
  let h := lcd_command h 0x0C
  let h := lcd_command h 0x06
  lcd_command h 0x01

def lcd_set_cursor (h : Hw) (row col : Nat) : Hw :=
  lcd_command h (0x80 ||| (if row % 256 ≠ 0 then 0x40 else 0x00) ||| (col % 256))

/-- The function `lcd_write_string(str)`; the string is its bytes, read up to
the first NUL. -/
def lcd_write_string (h : Hw) : List Nat → Hw
  | [] => h
  | c :: str => if c = 0 then h else lcd_write_string (lcd_data h c) str

/-- The bytes of a string literal. -/
def c_str (s : String) : List Nat := s.toList.map Char.toNat

/-! ## Stepper motor (`main.c` lines 179-192) -/

def motor_init (h : Hw) : Hw :=
  let h := { h with ddrd := reg_set h.ddrd MOTOR_STEP_PD }
  let h := { h with ddrc := (h.ddrc ||| ((1 <<< MOTOR_DIR_PC) ||| (1 <<< MOTOR_ENA_PC))) % 256 }
  write_portc h (reg_clear h.portc MOTOR_ENA_PC)

def motor_step (h : Hw) : Hw :=
  let h := write_portd h (reg_set h.portd MOTOR_STEP_PD)
  let h := delay_us h 800
  let h := write_portd h (reg_clear h.portd MOTOR_STEP_PD)
  delay_us h 800

/-! ## Control loop (`main.c` lines 195-237) -/

/-- The conversion of a 32-bit pattern to `int32_t`. -/
def to_int32 (x : Int) : Int := (x + 2 ^ 31) % 2 ^ 32 - 2 ^ 31

/-- The `uint32_t` difference `a - b`. -/
def sub_u32 (a b : Nat) : Nat := (((a : Int) - (b : Int)) % 2 ^ 32).toNat

/-- Line 214: `diff = ((int32_t)(r1 - offset1)) - ((int32_t)(r2 - offset2))`. -/
def diff32 (r1 offset1 r2 offset2 : Nat) : Int :=
  to_int32 (to_int32 (sub_u32 r1 offset1) - to_int32 (sub_u32 r2 offset2))

/-- Line 215: `pressure_kpa = diff / SCALE_FACTOR`, the quotient not rounded. -/
def pressure_kpa (diff : Int) : ℚ := (diff : ℚ) / SCALE_FACTOR

/-- The number of halvings that bring `n` below 2, at most `fuel` of them. -/
def log2_steps : Nat → Nat → Nat
  | 0, _ => 0
  | fuel + 1, n => if n < 2 then 0 else log2_steps fuel (n / 2) + 1

/-- The position of the leading bit of `n`. -/
def floor_log2 (n : Nat) : Nat := log2_steps n n

/-- The binary exponent `e` of the positive rational `n / d`, the integer with
`2^e ≤ n / d < 2^(e+1)`: the difference of the leading bit positions of `n`
and `d`, or one less. -/
def f32_exponent (n d : Nat) : Int :=
  let k : Int := (floor_log2 n : Int) - (floor_log2 d : Int)
  if d * 2 ^ k.toNat ≤ n * 2 ^ (-k).toNat then k else k - 1

/-- The integer nearest to `N / D`, a tie going to the even one. -/
def nearest_even (N D : Nat) : Nat :=
  if 2 * (N % D) < D then N / D
  else if D < 2 * (N % D) then N / D + 1
  else if N / D % 2 = 0 then N / D else N / D + 1

/-- The binary32 number nearest to the positive rational `n / d`: the 24-bit
significand is `n / d` scaled by `2^(23 - e)` and rounded to the nearest
integer, ties to even.  Overflow and subnormal numbers are left out: no value
met on line 215 is that large or that small. -/
def round_pos (n d : Nat) : ℚ :=
  let e := f32_exponent n d
  let N := n * 2 ^ (23 - e).toNat
  let D := d * 2 ^ (e - 23).toNat
  ((nearest_even N D * 2 ^ (e - 23).toNat : Nat) : ℚ) / ((2 ^ (23 - e).toNat : Nat) : ℚ)

/-- The binary32 number nearest to `q` (round to nearest, ties to even). -/
def round_f32 (q : ℚ) : ℚ :=
  if q.num = 0 then 0
  else (if q.num < 0 then -1 else 1) * round_pos q.num.natAbs q.den

/-- Line 215 as the AVR target computes it: `diff` is converted to binary32,
divided by `SCALE_FACTOR` (`10000.0`, a binary32 number), and the quotient is
rounded to binary32. -/
def pressure_f32 (diff : Int) : ℚ := round_f32 (round_f32 (diff : ℚ) / SCALE_FACTOR)

/-- Lines 232-233: the local `steps`.  The conversion to `uint8_t` keeps the
low byte of the integer part, as avr-gcc compiles it. -/
def step_count (pressure : ℚ) : Nat :=
  let steps := ⌊|pressure| * 10⌋.toNat % 256
  if steps > 50 then 50 else steps

/-- Line 234: `for (i = 0; i < steps; i++) motor_step();`. -/
def motor_steps : Nat → Hw → Hw
  | 0, h => h
  | n + 1, h => motor_steps n (motor_step h)

/-- Lines 225-235: the actuation at the end of a loop pass. -/
def actuate (h : Hw) (pressure : ℚ) : Hw :=
  if pressure > 0.10 ∨ pressure < -0.10 then
    let h :=
      if pressure > 0 then write_portc h (reg_set h.portc MOTOR_DIR_PC)
      else write_portc h (reg_clear h.portc MOTOR_DIR_PC)
    motor_steps (step_count pressure) h
  else h

/-- Lines 200-204: the calibration stage; returns `offset1` and `offset2`. -/
def calibrate (f : Filter) (h : Hw) : Option (Nat × Nat × Filter × Hw) :=
  let h := lcd_set_cursor h 0 0
  let h := lcd_write_string h (c_str "Calibrating...")
  match filtered_avg f h HX_DT1 with
  | none => none
  | some (offset1, f, h) =>
    match filtered_avg f h HX_DT2 with
    | none => none
    | some (offset2, f, h) => some (offset1, offset2, f, lcd_command h 0x01)

/-- Lines 209-235: one pass of `while (1)`.  The text that avr-libc `dtostrf`
writes for a pressure is a parameter. -/
def loop_body (dtostrf : ℚ → List Nat) (offset1 offset2 : Nat) (f : Filter) (h : Hw) :
    Option (Filter × Hw) :=
  let h := delay_ms h 500
  match filtered_avg f h HX_DT1 with
  | none => none
  | some (r1, f, h) =>
    match filtered_avg f h HX_DT2 with
    | none => none
    | some (r2, f, h) =>
      let diff := diff32 r1 offset1 r2 offset2
      let pressure := pressure_kpa diff
      let h := lcd_set_cursor h 0 0
      let h := lcd_write_string h (c_str "dP: ")
      let h := lcd_write_string h (dtostrf pressure)
      let h := lcd_write_string h (c_str " kPa ")
      some (f, actuate h pressure)

/-- The first `n` passes of `while (1)`. -/
def loop_passes (dtostrf : ℚ → List Nat) (offset1 offset2 : Nat) :
    Nat → Filter → Hw → Option (Filter × Hw)
  | 0, f, h => some (f, h)
  | n + 1, f, h =>
    match loop_body dtostrf offset1 offset2 f h with
    | none => none
    | some (f, h) => loop_passes dtostrf offset1 offset2 n f h

/-- The function `main`, cut after `n` passes of its loop. -/
def main (dtostrf : ℚ → List Nat) (n : Nat) (h : Hw) : Option (Filter × Hw) :=
  let h := lcd_init h
  let h := hx710b_init h
  let h := motor_init h
  match calibrate Filter.init h with
  | none => none
  | some (offset1, offset2, f, h) => loop_passes dtostrf offset1 offset2 n f h

/-- The registers after reset, with the coming values of `PINC`. -/
def Hw.reset (pinc : List Nat) : Hw :=
  { portb := 0, portc := 0, portd := 0, ddrb := 0, ddrc := 0, ddrd := 0, pinc := pinc, trace := [] }

/-! ## Reading the trace -/

/-- Rising edges of the step line `PD3` in a run of events in program order,
`lvl` being the level of the line before the run. -/
def step_pulses : Bool → List Event → Nat
  | _, [] => 0
  | lvl, Event.outD v :: es =>
    (if lvl = false ∧ v.testBit MOTOR_STEP_PD = true then 1 else 0) +
      step_pulses (v.testBit MOTOR_STEP_PD) es
  | lvl, _ :: es => step_pulses lvl es

/-- The motor steps issued between state `h` and a later state `h2`. -/
def steps_issued (h h2 : Hw) : Nat :=
  step_pulses (h.portd.testBit MOTOR_STEP_PD)
    (h2.trace.take (h2.trace.length - h.trace.length)).reverse

/-! ## Specification vocabulary -/

/-- The level of data line `pin` in a value of `PINC`. -/
def line_high (pin v : Nat) : Bool := decide (v &&& (1 <<< pin) ≠ 0)

/-- The word shifted in by the `for` loop of `hx710b_read` from the values of
`PINC` seen at the clock-high phases. -/
def shift_in (pin : Nat) : List Nat → Nat → Nat
  | [], value => value
  | p :: ps, value =>
    shift_in pin ps (if p &&& (1 <<< pin) ≠ 0 then ((value <<< 1) % 2 ^ 32 + 1) % 2 ^ 32
      else (value <<< 1) % 2 ^ 32)

/-- The number with the given bits, most significant first. -/
def msb_first : List Bool → Nat
  | [] => 0
  | b :: bs => b.toNat * 2 ^ bs.length + msb_first bs

/-- The values of `PINC` while the sensor on line `pin` is ready and shifts
out the 24-bit word `w`, most significant bit first; the other lines are low. -/
def hx_word (pin w : Nat) : List Nat :=
  0 :: (List.range 24).map (fun k => if w.testBit (23 - k) then 1 <<< pin else 0)

/-- The values of `PINC` for which `hx710b_read(pin)` returns `code`. -/
def hx_code (pin code : Nat) : List Nat := hx_word pin (sign_flip code)

/-! ## Specification vocabulary: the filter -/

/-- The codes returned by successive calls of `hx710b_read`, one call for each
entry of `pins`. -/
def read_codes : List Nat → Hw → Option (List Nat × Hw)
  | [], h => some ([], h)
  | pin :: pins, h =>
    match hx710b_read h pin with
    | none => none
    | some (code, h) =>
      match read_codes pins h with
      | none => none
      | some (codes, h) => some (code :: codes, h)

/-- Successive calls of `filtered_avg`, one call for each entry of `pins`, with
the values they return. -/
def filter_run : List Nat → Filter → Hw → Option (List Nat × Filter × Hw)
  | [], f, h => some ([], f, h)
  | pin :: pins, f, h =>
    match filtered_avg f h pin with
    | none => none
    | some (v, f, h) =>
      match filter_run pins f h with
      | none => none
      | some (vs, f, h) => some (v :: vs, f, h)

/-- The last 8 of the codes pushed so far, oldest first, with zeros standing
for the pushes that have not happened yet. -/
def window (past : List Nat) : List Nat :=
  (List.replicate FILTER_DEPTH 0 ++ past).drop past.length

/-- What the filter holds after the codes `past` were pushed. -/
def filter_inv (f : Filter) (past : List Nat) : Prop :=
  f.i1 < FILTER_DEPTH ∧ f.buffer1.length = FILTER_DEPTH ∧ (∀ x ∈ f.buffer1, x < 2 ^ 24) ∧
    f.buffer1.drop f.i1 ++ f.buffer1.take f.i1 = window past

/-- The values the filter returns for the codes `codes` pushed after `past`. -/
def means (past : List Nat) : List Nat → List Nat
  | [] => []
  | c :: cs => (window (past ++ [c])).sum / FILTER_DEPTH :: means (past ++ [c]) cs

/-- The example run: nine reads, alternating between the two channels. -/
def demo_pins : List Nat :=
  [HX_DT1, HX_DT2, HX_DT1, HX_DT2, HX_DT1, HX_DT2, HX_DT1, HX_DT2, HX_DT1]

/-- The codes the sensors deliver in the example run. -/
def demo_codes : List Nat := [8, 16, 24, 32, 40, 48, 56, 64, 72]

/-- The registers after reset, with the input of the example run. -/
def demo_hw : Hw :=
  Hw.reset (hx_code HX_DT1 8 ++ hx_code HX_DT2 16 ++ hx_code HX_DT1 24 ++ hx_code HX_DT2 32 ++
    hx_code HX_DT1 40 ++ hx_code HX_DT2 48 ++ hx_code HX_DT1 56 ++ hx_code HX_DT2 64 ++
    hx_code HX_DT1 72)

/-! ## Specification vocabulary: runs of `main` -/

/-- The motor steps issued during pass `n + 1` of the loop of `main`. -/
def steps_in_pass (dtostrf : ℚ → List Nat) (n : Nat) (h : Hw) : Option Nat :=
  (main dtostrf n h).bind fun a => (main dtostrf (n + 1) h).map fun b => steps_issued a.2 b.2

/-- The registers when the calibration stage starts. -/
def Hw.startup (pinc : List Nat) : Hw := motor_init (hx710b_init (lcd_init (Hw.reset pinc)))

/-- Sensor input: calibration reads 0 on channel 1 and 2060000 on channel 2,
the first loop pass reads 0 on both. -/
def wrap_input : List Nat :=
  hx_code HX_DT1 0 ++ hx_code HX_DT2 2060000 ++ hx_code HX_DT1 0 ++ hx_code HX_DT2 0

/-- Sensor input: calibration reads 0 on channel 1 and 2050000 on channel 2,
the first loop pass reads 0 on both. -/
def stall_input : List Nat :=
  hx_code HX_DT1 0 ++ hx_code HX_DT2 2050000 ++ hx_code HX_DT1 0 ++ hx_code HX_DT2 0

/-- Sensor input: both channels read the constant code 1000. -/
def const_input : List Nat := hx_code HX_DT1 1000 ++ hx_code HX_DT2 1000

/-! ## Specification vocabulary: the step line -/

/-- Between `h` and the later state `h2` the step line `PD3` kept its level:
every write to `PORTD` in between carries the level it had in `h`. -/
def holds_step (h h2 : Hw) : Prop :=
  ∃ evs : List Event, h2.trace = evs.reverse ++ h.trace ∧
    (∀ v, Event.outD v ∈ evs → v.testBit MOTOR_STEP_PD = h.portd.testBit MOTOR_STEP_PD) ∧
    h2.portd.testBit MOTOR_STEP_PD = h.portd.testBit MOTOR_STEP_PD

/-! ## Specification vocabulary: example runs of the filter -/

/-- The state after the first eight calls of the example run. -/
def demo_run : List Nat × Filter × Hw :=
  (filter_run (demo_pins.take 8) Filter.init demo_hw).getD ([], Filter.init, demo_hw)

/-- The ninth call of the example run. -/
def demo_call : Nat × Filter × Hw :=
  (filtered_avg demo_run.2.1 demo_run.2.2 HX_DT1).getD (0, demo_run.2.1, demo_run.2.2)

/-- A buffer full of the largest code, and a sensor that delivers it once more. -/
def full_scale : Filter := { buffer1 := List.replicate FILTER_DEPTH 16777215, i1 := 5 }

def full_scale_hw : Hw := Hw.reset (hx_code HX_DT2 16777215)

def full_scale_read : Nat × Hw := (hx710b_read full_scale_hw HX_DT2).getD (0, full_scale_hw)

/-! ## RS485 line read (`main.c` lines 76-88) -/

/-- The `while (1)` loop of `rs485_readln`, run over the bytes the receiver
will deliver: each wait for `RXC0` ends when the next byte is there, and never
ends when no byte is left.  The buffer is the memory from `buf` on, by offset;
`i` never exceeds `maxlen - 1`, so the `int` arithmetic does not wrap. -/
def rs485_readln_loop (maxlen : Int) :
    List Nat → Nat → (Nat → Nat) → Option (Nat × (Nat → Nat) × List Nat)
  | [], _, _ => none
  | c :: rx, i, buf =>
    let buf2 := if (i : Int) < maxlen - 1 then Function.update buf i c else buf
    let i2 := if (i : Int) < maxlen - 1 then i + 1 else i
    if c = 10 then some (i2, buf2, rx) else rs485_readln_loop maxlen rx i2 buf2

/-- The function `rs485_readln(buf, maxlen)`: the count returned, the memory
after the call, and the bytes not yet received. -/
def rs485_readln (rx : List Nat) (buf : Nat → Nat) (maxlen : Int) :
    Option (Nat × (Nat → Nat) × List Nat) :=
  match rs485_readln_loop maxlen rx 0 buf with
  | none => none
  | some (i, buf, rx) => some (i, Function.update buf i 0, rx)

/-! ## Specification vocabulary: events of a run -/

/-- The events between state `h` and a later state `h2`, in program order. -/
def events_since (h h2 : Hw) : List Event :=
  (h2.trace.take (h2.trace.length - h.trace.length)).reverse

/-! ## Specification vocabulary: the lines of `PORTC` -/

/-- Between `h` and the later state `h2` nothing was written to `PORTC`. -/
def quiet_c (h h2 : Hw) : Prop :=
  ∃ evs : List Event, h2.trace = evs.reverse ++ h.trace ∧ (∀ v, Event.outC v ∉ evs) ∧
    h2.portc = h.portc

/-- Between `h` and the later state `h2` bit `j` of `PORTC` kept its level:
every write to `PORTC` in between carries the level it had in `h`. -/
def holds_portc (j : Nat) (h h2 : Hw) : Prop :=
  ∃ evs : List Event, h2.trace = evs.reverse ++ h.trace ∧
    (∀ v, Event.outC v ∈ evs → v.testBit j = h.portc.testBit j) ∧
    h2.portc.testBit j = h.portc.testBit j

/-- The value of the local `pressure_kpa` in a pass of the loop that starts in
state `h` (lines 212-215). -/
def pass_pressure (offset1 offset2 : Nat) (f : Filter) (h : Hw) : Option ℚ :=
  match filtered_avg f (delay_ms h 500) HX_DT1 with
  | none => none
  | some (r1, f, h) =>
    match filtered_avg f h HX_DT2 with
    | none => none
    | some (r2, _, _) => some (pressure_kpa (diff32 r1 offset1 r2 offset2))

/-! ## Specification vocabulary: an example pass -/

/-- Rising edges of the clock line `PC4` in a run of events in program order,
`lvl` being the level of the line before the run. -/
def sck_rises : Bool → List Event → Nat
  | _, [] => 0
  | lvl, Event.outC v :: es =>
    (if lvl = false ∧ v.testBit HX_SCK = true then 1 else 0) + sck_rises (v.testBit HX_SCK) es
  | lvl, _ :: es => sck_rises lvl es

/-- Falling edges of the clock line `PC4` in a run of events. -/
def sck_falls : Bool → List Event → Nat
  | _, [] => 0
  | lvl, Event.outC v :: es =>
    (if lvl = true ∧ v.testBit HX_SCK = false then 1 else 0) + sck_falls (v.testBit HX_SCK) es
  | lvl, _ :: es => sck_falls lvl es

/-- The reads of `PINC` in a run of events, each with the level of the clock
line at the time of the read. -/
def pinc_reads : Bool → List Event → List (Bool × Nat)
  | _, [] => []
  | _, Event.outC v :: es => pinc_reads (v.testBit HX_SCK) es
  | lvl, Event.inC v :: es => (lvl, v) :: pinc_reads lvl es
  | lvl, _ :: es => pinc_reads lvl es

/-- The accesses of one clock pulse that samples `b`, with `hi` and `lo` the
values written to `PORTC`. -/
def clock_pulse (hi lo b : Nat) : List Event := [Event.outC hi, Event.inC b, Event.outC lo]

/-- The accesses of `hx710b_read` on an input where the line is high through
`wait`, low at `ready`, and shows `bits` at the clock-high phases; `portc` is
`PORTC` at the call. -/
def hx710b_read_events (portc : Nat) (wait : List Nat) (ready : Nat) (bits : List Nat) :
    List Event :=
  (wait ++ [ready]).map Event.inC ++
    (bits.map (clock_pulse (reg_set portc HX_SCK) (reg_clear (reg_set portc HX_SCK) HX_SCK))).flatten ++
    [Event.outC (reg_set portc HX_SCK), Event.outC (reg_clear (reg_set portc HX_SCK) HX_SCK)]

/-- A channel-1 read from reset, the line ready at once, word `0x800005`. -/
def poll_hw : Hw := Hw.reset (hx_word HX_DT1 0x800005)

/-! ## Specification vocabulary: more example runs -/

/-- Sensor input: the run on `wrap_input`, then a second pass that reads 0 on
channel 1 and 2060000 on channel 2. -/
def calm_input : List Nat := wrap_input ++ hx_code HX_DT1 0 ++ hx_code HX_DT2 2060000

/-- The state of the run on `calm_input` when its second pass starts. -/
def calm_start : Filter × Hw :=
  (main (fun _ => c_str "25.75") 1 (Hw.reset calm_input)).getD (Filter.init, Hw.reset [])

/-- The state of the run on `calm_input` when its second pass ends. -/
def calm_end : Filter × Hw :=
  (loop_body (fun _ => c_str "25.75") 0 257500 calm_start.1 calm_start.2).getD calm_start

/-- A channel-1 read with the direction line high. -/
def dir_hw : Hw := { Hw.reset (hx_word HX_DT1 0x800005) with portc := 0x20 }

def dir_read : Nat × Hw := (hx710b_read dir_hw HX_DT1).getD (0, dir_hw)

/-! ## Specification vocabulary: step pulses -/

theorem hx710b_wait_run (pin : Nat) (wait : List Nat) (ready : Nat) (tail : List Nat)
    (tr : List Event) (hwait : ∀ w ∈ wait, w &&& (1 <<< pin) ≠ 0)
    (hready : ready &&& (1 <<< pin) = 0) :
    hx710b_wait pin (wait ++ ready :: tail) tr =
      some (tail, Event.inC ready :: ((wait.map Event.inC).reverse ++ tr)) := by
  induction wait generalizing tr with
  | nil => simp [hx710b_wait, hready]
  | cons w ws ih =>
    have hw : w &&& (1 <<< pin) ≠ 0 := hwait w (by simp)
    have hws : ∀ x ∈ ws, x &&& (1 <<< pin) ≠ 0 := fun x hx => hwait x (by simp [hx])
    simp [hx710b_wait, hw, ih _ hws]

theorem hx710b_bits_run (pin : Nat) (bits rest : List Nat) (value : Nat) (h : Hw)
    (hin : h.pinc = bits ++ rest) :
    ∃ h2, hx710b_bits pin bits.length value h = some (shift_in pin bits value, h2) ∧
      h2.pinc = rest ∧ h2.portb = h.portb ∧ h2.portd = h.portd := by
  induction bits generalizing value h with
  | nil => exact ⟨h, by simp [hx710b_bits, shift_in], by simpa using hin, rfl, rfl⟩
  | cons b bs ih =>
    let h1 : Hw := write_portc { write_portc h (reg_set h.portc HX_SCK) with
      pinc := bs ++ rest,
      trace := Event.inC b :: (write_portc h (reg_set h.portc HX_SCK)).trace }
      (reg_clear (reg_set h.portc HX_SCK) HX_SCK)
    have hstep : hx710b_bit pin value h =
        some (if b &&& (1 <<< pin) ≠ 0 then ((value <<< 1) % 2 ^ 32 + 1) % 2 ^ 32
          else (value <<< 1) % 2 ^ 32, h1) := by
      simp [hx710b_bit, read_pinc, write_portc, hin, h1]
    obtain ⟨h2, hrun, hp, hb, hd⟩ :=
      ih (if b &&& (1 <<< pin) ≠ 0 then ((value <<< 1) % 2 ^ 32 + 1) % 2 ^ 32
        else (value <<< 1) % 2 ^ 32) h1 rfl
    refine ⟨h2, ?_, hp, ?_, ?_⟩
    · simp only [List.length_cons, hx710b_bits, hstep, shift_in]
      exact hrun
    · simpa [write_portc, h1] using hb
    · simpa [write_portc, h1] using hd

theorem msb_first_lt (bs : List Bool) : msb_first bs < 2 ^ bs.length := by
  induction bs with
  | nil => simp [msb_first]
  | cons b bs ih =>
    have hb : b.toNat ≤ 1 := by cases b <;> simp
    have : b.toNat * 2 ^ bs.length ≤ 1 * 2 ^ bs.length := Nat.mul_le_mul_right _ hb
    simp only [msb_first, List.length_cons, pow_succ]
    omega

theorem msb_first_testBit (bs : List Bool) (k : Nat) (hk : k < bs.length) :
    (msb_first bs).testBit (bs.length - 1 - k) = bs[k] := by
  induction bs generalizing k with
  | nil => simp at hk
  | cons b bs ih =>
    simp only [msb_first, List.length_cons]
    rw [Nat.mul_comm, Nat.testBit_mul_pow_two_add _ (msb_first_lt bs)]
    cases k with
    | zero =>
      have : ¬ (bs.length + 1 - 1 - 0 < bs.length) := by omega
      simp only [this, if_false, List.getElem_cons_zero]
      have : bs.length + 1 - 1 - 0 - bs.length = 0 := by omega
      rw [this]
      cases b <;> simp
    | succ k =>
      simp only [List.length_cons, Nat.add_lt_add_iff_right] at hk
      have h1 : bs.length + 1 - 1 - (k + 1) < bs.length := by omega
      simp only [h1, if_true, List.getElem_cons_succ]
      have : bs.length + 1 - 1 - (k + 1) = bs.length - 1 - k := by omega
      rw [this]
      exact ih k hk

theorem shift_in_eq (pin : Nat) (ps : List Nat) (value m : Nat) (hv : value < 2 ^ m)
    (hm : m + ps.length ≤ 32) :
    shift_in pin ps value = value * 2 ^ ps.length + msb_first (ps.map (line_high pin)) := by
  induction ps generalizing value m with
  | nil => simp [shift_in, msb_first]
  | cons p ps ih =>
    simp only [List.length_cons] at hm
    have hpow : 2 ^ (m + 1) ≤ 2 ^ 32 := Nat.pow_le_pow_right (by decide) (by omega)
    have h2 : 2 * value + 1 < 2 ^ (m + 1) := by rw [pow_succ]; omega
    have hs : value <<< 1 = 2 * value := by rw [Nat.shiftLeft_eq]; omega
    have e1 : (value <<< 1) % 2 ^ 32 = 2 * value := by
      rw [hs]; exact Nat.mod_eq_of_lt (by omega)
    have e2 : (2 * value + 1) % 2 ^ 32 = 2 * value + 1 := Nat.mod_eq_of_lt (by omega)
    simp only [shift_in, e1, e2, List.map_cons, msb_first, List.length_cons, List.length_map]
    by_cases hp : p &&& (1 <<< pin) ≠ 0
    · rw [if_pos hp, ih (2 * value + 1) (m + 1) h2 (by omega)]
      have : line_high pin p = true := by simp [line_high, hp]
      simp [this, pow_succ]; ring
    · rw [if_neg hp, ih (2 * value) (m + 1) (by omega) (by omega)]
      have : line_high pin p = false := by simpa [line_high] using hp
      simp [this, pow_succ]; ring

theorem sign_flip_testBit (x j : Nat) :
    (sign_flip x).testBit j = xor (x.testBit j) (decide (j = 23)) := by
  have : (0x800000 : Nat) = 2 ^ 23 := by norm_num
  simp only [sign_flip, Nat.testBit_xor, this, Nat.testBit_two_pow]
  congr 1
  simp [eq_comm]

theorem sign_flip_lt (x : Nat) (hx : x < 2 ^ 24) : sign_flip x < 2 ^ 24 :=
  Nat.xor_lt_two_pow hx (by norm_num)

/-- The run of `hx710b_read` on an input where the line is high through
`wait`, low at `ready`, and shows `bits` at the 24 clock-high phases. -/
theorem hx710b_read_run (h : Hw) (pin : Nat) (wait : List Nat) (ready : Nat)
    (bits rest : List Nat) (hwait : ∀ w ∈ wait, w &&& (1 <<< pin) ≠ 0)
    (hready : ready &&& (1 <<< pin) = 0) (hbits : bits.length = 24)
    (hin : h.pinc = wait ++ ready :: (bits ++ rest)) :
    ∃ h2, hx710b_read h pin = some (sign_flip (msb_first (bits.map (line_high pin))), h2) ∧
      h2.pinc = rest ∧ h2.portb = h.portb ∧ h2.portd = h.portd := by
  have hw := hx710b_wait_run pin wait ready (bits ++ rest) h.trace hwait hready
  obtain ⟨h2, hrun, hp, hb, hd⟩ := hx710b_bits_run pin bits rest 0
    { h with pinc := bits ++ rest,
             trace := Event.inC ready :: ((wait.map Event.inC).reverse ++ h.trace) } rfl
  rw [hbits] at hrun
  have hsh := shift_in_eq pin bits 0 0 (by norm_num) (by omega)
  simp only [Nat.zero_mul, Nat.zero_add] at hsh
  rw [hsh] at hrun
  refine ⟨write_portc (write_portc h2 (reg_set h2.portc HX_SCK))
    (reg_clear (write_portc h2 (reg_set h2.portc HX_SCK)).portc HX_SCK), ?_, ?_, ?_, ?_⟩
  · simp only [hx710b_read, hin, hw, hrun]
  · simpa [write_portc] using hp
  · simpa [write_portc] using hb
  · simpa [write_portc] using hd

/-- C7: on every input where the data line becomes ready and then shows the 24
samples `bits` at the clock-high phases, `hx710b_read` returns a value below
`2^24` whose bit `23 - k` is sample `k`, except that bit 23 is the first sample
flipped. -/
theorem hx710b_read_decodes (h : Hw) (pin : Nat) (wait : List Nat) (ready : Nat)
    (bits rest : List Nat) (hwait : ∀ w ∈ wait, w &&& (1 <<< pin) ≠ 0)
    (hready : ready &&& (1 <<< pin) = 0) (hbits : bits.length = 24)
    (hin : h.pinc = wait ++ ready :: (bits ++ rest)) :
    ∃ value h2, hx710b_read h pin = some (value, h2) ∧ value < 2 ^ 24 ∧
      ∀ k (hk : k < bits.length),
        value.testBit (23 - k) = xor (line_high pin bits[k]) (decide (k = 0)) := by
  obtain ⟨h2, hrun, -, -, -⟩ := hx710b_read_run h pin wait ready bits rest hwait hready hbits hin
  have hlen : (bits.map (line_high pin)).length = 24 := by simp [hbits]
  have hlt : msb_first (bits.map (line_high pin)) < 2 ^ 24 := by
    have := msb_first_lt (bits.map (line_high pin))
    rwa [hlen] at this
  refine ⟨_, h2, hrun, sign_flip_lt _ hlt, ?_⟩
  intro k hk
  have hk2 : k < (bits.map (line_high pin)).length := by simpa using hk
  have hb := msb_first_testBit (bits.map (line_high pin)) k hk2
  rw [hlen] at hb
  rw [sign_flip_testBit, hb]
  have : (23 - k = 23) ↔ (k = 0) := by omega
  simp [this]

/-- The input of the example: channel 1 is busy for two reads, then ready,
then shifts out the word `0x800005`. -/
theorem hx710b_read_decodes_witness :
    ∃ value h2, hx710b_read (Hw.reset ([4, 4, 0] ++ (hx_word HX_DT1 0x800005).tail)) HX_DT1
        = some (value, h2) ∧ value < 2 ^ 24 ∧
      ∀ k (hk : k < ((hx_word HX_DT1 0x800005).tail).length),
        value.testBit (23 - k) =
          xor (line_high HX_DT1 ((hx_word HX_DT1 0x800005).tail)[k]) (decide (k = 0)) :=
  hx710b_read_decodes (Hw.reset ([4, 4, 0] ++ (hx_word HX_DT1 0x800005).tail)) HX_DT1
    [4, 4] 0 (hx_word HX_DT1 0x800005).tail [] (by decide) (by decide) (by decide) (by decide)

/-- C10: for every 24-bit code, the bit-23 flip of `hx710b_read` applied twice
gives the code back, and applied once stays below `2^24`. -/
theorem sign_flip_involutive (v : Nat) (hv : v < 2 ^ 24) :
    sign_flip (sign_flip v) = v ∧ sign_flip v < 2 ^ 24 := by
  refine ⟨?_, sign_flip_lt v hv⟩
  simp [sign_flip, Nat.xor_assoc]

theorem sign_flip_involutive_witness :
    sign_flip (sign_flip 0x7FFFFF) = 0x7FFFFF ∧ sign_flip 0x7FFFFF < 2 ^ 24 :=
  sign_flip_involutive 0x7FFFFF (by decide)

/-! ## The moving-average filter -/

theorem hx710b_bits_lt (pin n : Nat) (value m : Nat) (h : Hw) (v2 : Nat) (h2 : Hw)
    (hv : value < 2 ^ m) (hm : m + n ≤ 32)
    (hrun : hx710b_bits pin n value h = some (v2, h2)) : v2 < 2 ^ (m + n) := by
  induction n generalizing value m h with
  | zero =>
    simp only [hx710b_bits, Option.some.injEq, Prod.mk.injEq] at hrun
    simpa [← hrun.1] using hv
  | succ n ih =>
    simp only [hx710b_bits] at hrun
    cases hb : hx710b_bit pin value h with
    | none => simp [hb] at hrun
    | some r =>
      obtain ⟨v1, h1⟩ := r
      simp only [hb] at hrun
      have hpow : 2 ^ (m + 1) ≤ 2 ^ 32 := Nat.pow_le_pow_right (by decide) (by omega)
      have hs : value <<< 1 = 2 * value := by rw [Nat.shiftLeft_eq]; omega
      have hv1 : v1 < 2 ^ (m + 1) := by
        simp only [hx710b_bit, hs] at hb
        cases hr : read_pinc (write_portc h (reg_set h.portc HX_SCK)) with
        | none => simp [hr] at hb
        | some q =>
          simp only [hr, Option.some.injEq, Prod.mk.injEq] at hb
          rw [← hb.1, pow_succ]
          split <;> omega
      have := ih v1 (m + 1) h1 hv1 (by omega) hrun
      rwa [show m + 1 + n = m + (n + 1) by omega] at this

theorem hx710b_read_lt (h : Hw) (pin value : Nat) (h2 : Hw)
    (hrun : hx710b_read h pin = some (value, h2)) : value < 2 ^ 24 := by
  simp only [hx710b_read] at hrun
  cases hw : hx710b_wait pin h.pinc h.trace with
  | none => simp [hw] at hrun
  | some r =>
    obtain ⟨rest, tr⟩ := r
    simp only [hw] at hrun
    cases hb : hx710b_bits pin 24 0 { h with pinc := rest, trace := tr } with
    | none => simp [hb] at hrun
    | some q =>
      obtain ⟨v, h1⟩ := q
      simp only [hb, Option.some.injEq, Prod.mk.injEq] at hrun
      have := hx710b_bits_lt pin 24 0 0 _ v h1 (by norm_num) (by norm_num) hb
      rw [← hrun.1]
      exact sign_flip_lt v (by simpa using this)

theorem window_length (past : List Nat) : (window past).length = FILTER_DEPTH := by
  simp [window]

theorem window_snoc (past : List Nat) (c : Nat) :
    window (past ++ [c]) = (window past).tail ++ [c] := by
  have hlen : past.length < (List.replicate FILTER_DEPTH 0 ++ past).length := by
    simp only [List.length_append, List.length_replicate, FILTER_DEPTH]; omega
  simp only [window, List.length_append, List.length_singleton, ← List.append_assoc]
  rw [← List.drop_drop, List.drop_append_of_le_length (by omega)]
  cases hd : List.drop past.length (List.replicate FILTER_DEPTH 0 ++ past) with
  | nil =>
    have := congrArg List.length hd
    simp only [List.length_drop, List.length_nil] at this
    omega
  | cons x xs => simp

theorem list_of_length_eight (l : List Nat) (hl : l.length = 8) :
    ∃ a0 a1 a2 a3 a4 a5 a6 a7, l = [a0, a1, a2, a3, a4, a5, a6, a7] := by
  match l, hl with
  | [a0, a1, a2, a3, a4, a5, a6, a7], _ => exact ⟨a0, a1, a2, a3, a4, a5, a6, a7, rfl⟩

theorem filtered_avg_step (f : Filter) (past : List Nat) (h h2 : Hw) (pin c : Nat)
    (hinv : filter_inv f past) (hrd : hx710b_read h pin = some (c, h2)) :
    ∃ f2, filtered_avg f h pin = some ((window (past ++ [c])).sum / FILTER_DEPTH, f2, h2) ∧
      filter_inv f2 (past ++ [c]) := by
  have hc : c < 2 ^ 24 := hx710b_read_lt h pin c h2 hrd
  obtain ⟨buf, i⟩ := f
  obtain ⟨hi, hlen, hbnd, hrot⟩ := hinv
  simp only [FILTER_DEPTH] at hi hlen
  obtain ⟨a0, a1, a2, a3, a4, a5, a6, a7, rfl⟩ := list_of_length_eight buf hlen
  have hr : List.range 8 = [0, 1, 2, 3, 4, 5, 6, 7] := by decide
  simp only [List.mem_cons, List.mem_singleton, forall_eq_or_imp, forall_eq, List.not_mem_nil,
    false_imp_iff, implies_true, and_true] at hbnd
  obtain ⟨b0, b1, b2, b3, b4, b5, b6, b7⟩ := hbnd
  simp only [filtered_avg, hrd, filter_inv, window_snoc, ← hrot, FILTER_DEPTH, hr]
  refine ⟨⟨[a0, a1, a2, a3, a4, a5, a6, a7].set i c, (i + 1) % 8⟩, ?_, ?_, ?_, ?_, ?_⟩
  · interval_cases i <;>
      simp only [List.set_cons_zero, List.set_cons_succ, List.foldl_cons, List.foldl_nil,
        List.getD_cons_zero, List.getD_cons_succ, List.drop_zero, List.take_zero,
        List.drop_succ_cons, List.take_succ_cons, List.append_nil, List.tail_cons,
        List.cons_append, List.nil_append, List.sum_cons, List.sum_nil, Option.some.injEq,
        Prod.mk.injEq, and_true] <;>
      omega
  · exact Nat.mod_lt _ (by norm_num)
  · simp
  · intro x hx
    interval_cases i <;>
      simp only [List.set_cons_zero, List.set_cons_succ, List.mem_cons, List.mem_singleton,
        List.not_mem_nil, or_false] at hx <;>
      omega
  · interval_cases i <;> simp

theorem filter_inv_init : filter_inv Filter.init [] := by
  refine ⟨by decide, by decide, ?_, by decide⟩
  intro x hx
  simp only [Filter.init, List.mem_replicate] at hx
  omega

theorem means_length (past codes : List Nat) : (means past codes).length = codes.length := by
  induction codes generalizing past with
  | nil => rfl
  | cons c cs ih => simp [means, ih]

theorem means_getLast (past codes : List Nat) (hne : codes ≠ []) :
    (means past codes).getLast? = some ((window (past ++ codes)).sum / FILTER_DEPTH) := by
  induction codes generalizing past with
  | nil => exact absurd rfl hne
  | cons c cs ih =>
    cases cs with
    | nil => simp [means]
    | cons d ds =>
      have := ih (past ++ [c]) (by simp)
      simp only [List.append_assoc, List.singleton_append] at this
      rw [← this]
      simp only [means, List.getLast?_cons_cons]

theorem filter_run_means (pins : List Nat) (f : Filter) (past : List Nat) (h h2 : Hw)
    (codes : List Nat) (hinv : filter_inv f past)
    (hrd : read_codes pins h = some (codes, h2)) :
    ∃ f2, filter_run pins f h = some (means past codes, f2, h2) ∧
      filter_inv f2 (past ++ codes) := by
  induction pins generalizing f past h codes with
  | nil =>
    simp only [read_codes, Option.some.injEq, Prod.mk.injEq] at hrd
    obtain ⟨rfl, rfl⟩ := hrd
    exact ⟨f, by simp [filter_run, means], by simpa using hinv⟩
  | cons pin pins ih =>
    simp only [read_codes] at hrd
    cases h1 : hx710b_read h pin with
    | none => simp [h1] at hrd
    | some r =>
      obtain ⟨c, hmid⟩ := r
      simp only [h1] at hrd
      cases h3 : read_codes pins hmid with
      | none => simp [h3] at hrd
      | some q =>
        obtain ⟨cs, hend⟩ := q
        simp only [h3, Option.some.injEq, Prod.mk.injEq] at hrd
        obtain ⟨rfl, rfl⟩ := hrd
        obtain ⟨f1, hstep, hinv1⟩ := filtered_avg_step f past h hmid pin c hinv h1
        obtain ⟨f2, hrun, hinv2⟩ := ih f1 (past ++ [c]) hmid cs hinv1 h3
        refine ⟨f2, ?_, by simpa using hinv2⟩
        simp only [filter_run, hstep, hrun, means]

theorem read_codes_length (pins : List Nat) (h h2 : Hw) (codes : List Nat)
    (hrd : read_codes pins h = some (codes, h2)) : codes.length = pins.length := by
  induction pins generalizing h codes with
  | nil =>
    simp only [read_codes, Option.some.injEq, Prod.mk.injEq] at hrd
    simp [← hrd.1]
  | cons pin pins ih =>
    simp only [read_codes] at hrd
    cases h1 : hx710b_read h pin with
    | none => simp [h1] at hrd
    | some r =>
      obtain ⟨c, hmid⟩ := r
      simp only [h1] at hrd
      cases h3 : read_codes pins hmid with
      | none => simp [h3] at hrd
      | some q =>
        obtain ⟨cs, hend⟩ := q
        simp only [h3, Option.some.injEq, Prod.mk.injEq] at hrd
        obtain ⟨rfl, rfl⟩ := hrd
        simp [ih hmid cs h3]

theorem window_of_full (codes : List Nat) (hlen : FILTER_DEPTH ≤ codes.length) :
    window codes = codes.drop (codes.length - FILTER_DEPTH) := by
  unfold window
  rw [List.drop_append_eq_append_drop]
  simp [List.drop_eq_nil_of_le, hlen]

theorem window_of_short (codes : List Nat) (hlen : codes.length < FILTER_DEPTH) :
    window codes = List.replicate (FILTER_DEPTH - codes.length) 0 ++ codes := by
  unfold window
  rw [List.drop_append_of_le_length (by simp; omega)]
  simp

/-- C1: starting from the all-zero buffer with write index 0, when the calls
`filtered_avg(pin)` for `pins` (at least one) read the codes `codes`, the last
call returns the truncating mean `sum / 8` of the window of the last 8 codes;
the window is the last 8 codes when at least 8 were pushed, and otherwise all
the codes pushed, padded with zeros. -/
theorem filtered_avg_moving_mean (pins : List Nat) (h : Hw) (codes : List Nat)
    (hne : pins ≠ []) (hrd : (read_codes pins h).map Prod.fst = some codes) :
    ∃ vals f2 h2, filter_run pins Filter.init h = some (vals, f2, h2) ∧
      vals.length = pins.length ∧
      vals.getLast? = some ((window codes).sum / 8) ∧
      (8 ≤ codes.length → window codes = codes.drop (codes.length - 8)) ∧
      (codes.length < 8 → window codes = List.replicate (8 - codes.length) 0 ++ codes) := by
  cases hr : read_codes pins h with
  | none => simp [hr] at hrd
  | some r =>
    obtain ⟨cs, h2⟩ := r
    simp only [hr, Option.map_some', Option.some.injEq] at hrd
    subst hrd
    obtain ⟨f2, hrun, -⟩ := filter_run_means pins Filter.init [] h h2 cs filter_inv_init hr
    have hlen := read_codes_length pins h h2 cs hr
    have hcs : cs ≠ [] := by
      intro h0
      rw [h0] at hlen
      exact hne (List.length_eq_zero.mp hlen.symm)
    refine ⟨means [] cs, f2, h2, hrun, ?_, ?_, window_of_full cs, window_of_short cs⟩
    · rw [means_length, hlen]
    · simpa [FILTER_DEPTH] using means_getLast [] cs hcs

theorem filtered_avg_moving_mean_witness :
    ∃ vals f2 h2, filter_run demo_pins Filter.init demo_hw = some (vals, f2, h2) ∧
      vals.length = demo_pins.length ∧
      vals.getLast? = some ((window demo_codes).sum / 8) ∧
      (8 ≤ demo_codes.length → window demo_codes = demo_codes.drop (demo_codes.length - 8)) ∧
      (demo_codes.length < 8 →
        window demo_codes = List.replicate (8 - demo_codes.length) 0 ++ demo_codes) :=
  filtered_avg_moving_mean demo_pins demo_hw demo_codes (by decide) (by decide)

/-! ## Pressure computation -/

/-- The nearest integer is within one half. -/
theorem nearest_even_err (N D : Nat) (hD : 0 < D) :
    |((nearest_even N D : Nat) : ℚ) - (N : ℚ) / D| ≤ 1 / 2 := by
  have hDq : (0 : ℚ) < D := by exact_mod_cast hD
  have hdm : (N : ℚ) = (D : ℚ) * ((N / D : Nat) : ℚ) + ((N % D : Nat) : ℚ) := by
    exact_mod_cast (Nat.div_add_mod N D).symm
  have hmod : ((N % D : Nat) : ℚ) < D := by exact_mod_cast Nat.mod_lt N hD
  have hm0 : (0 : ℚ) ≤ ((N % D : Nat) : ℚ) := by positivity
  have e1 : (N : ℚ) / D = ((N / D : Nat) : ℚ) + ((N % D : Nat) : ℚ) / D := by
    rw [hdm]; field_simp; ring
  rw [abs_le]
  unfold nearest_even
  split_ifs with h1 h2 h3
  · have : (2 : ℚ) * ((N % D : Nat) : ℚ) < D := by exact_mod_cast h1
    have h4 : ((N % D : Nat) : ℚ) / D < 1 / 2 := by rw [div_lt_iff₀ hDq]; linarith
    have h5 : 0 ≤ ((N % D : Nat) : ℚ) / D := by positivity
    constructor <;> rw [e1] <;> linarith
  · have : (D : ℚ) < 2 * ((N % D : Nat) : ℚ) := by exact_mod_cast h2
    have h4 : 1 / 2 < ((N % D : Nat) : ℚ) / D := by rw [lt_div_iff₀ hDq]; linarith
    have h5 : ((N % D : Nat) : ℚ) / D < 1 := by rw [div_lt_iff₀ hDq]; linarith
    push_cast
    constructor <;> rw [e1] <;> linarith
  · have h6 : 2 * (N % D) = D := by omega
    have : (2 : ℚ) * ((N % D : Nat) : ℚ) = D := by exact_mod_cast h6
    have h4 : ((N % D : Nat) : ℚ) / D = 1 / 2 := by rw [div_eq_iff hDq.ne']; linarith
    constructor <;> rw [e1] <;> linarith
  · have h6 : 2 * (N % D) = D := by omega
    have : (2 : ℚ) * ((N % D : Nat) : ℚ) = D := by exact_mod_cast h6
    have h4 : ((N % D : Nat) : ℚ) / D = 1 / 2 := by rw [div_eq_iff hDq.ne']; linarith
    push_cast
    constructor <;> rw [e1] <;> linarith

theorem log2_steps_eq (fuel n : Nat) (h : n ≤ fuel) : log2_steps fuel n = Nat.log2 n := by
  induction fuel generalizing n with
  | zero =>
    have : n = 0 := by omega
    subst this
    rw [Nat.log2]
    simp [log2_steps]
  | succ f ih =>
    rw [Nat.log2]
    simp only [log2_steps]
    by_cases h2 : n < 2
    · rw [if_pos h2, if_neg (by omega)]
    · rw [if_neg h2, if_pos (by omega), ih (n / 2) (by omega)]

theorem floor_log2_eq (n : Nat) : floor_log2 n = Nat.log2 n := log2_steps_eq n n le_rfl

/-- The exponent is not too large: `2^e ≤ n / d`. -/
theorem f32_exponent_le (n d : Nat) (hn : 0 < n) :
    d * 2 ^ (f32_exponent n d).toNat ≤ n * 2 ^ (-(f32_exponent n d)).toNat := by
  unfold f32_exponent
  simp only [floor_log2_eq]
  split_ifs with h
  · exact h
  · have h1 : 2 ^ n.log2 ≤ n := Nat.log2_self_le (by omega)
    have h2 : d < 2 ^ (d.log2 + 1) := Nat.lt_log2_self
    by_cases hk : d.log2 + 1 ≤ n.log2
    · have e1 : ((n.log2 : Int) - (d.log2 : Int) - 1).toNat = n.log2 - d.log2 - 1 := by omega
      have e2 : (-((n.log2 : Int) - (d.log2 : Int) - 1)).toNat = 0 := by omega
      rw [e1, e2, pow_zero, Nat.mul_one]
      have h3 : d * 2 ^ (n.log2 - d.log2 - 1) < 2 ^ (d.log2 + 1) * 2 ^ (n.log2 - d.log2 - 1) :=
        Nat.mul_lt_mul_of_pos_right h2 (by positivity)
      rw [← pow_add] at h3
      have e3 : d.log2 + 1 + (n.log2 - d.log2 - 1) = n.log2 := by omega
      rw [e3] at h3
      omega
    · have e1 : ((n.log2 : Int) - (d.log2 : Int) - 1).toNat = 0 := by omega
      have e2 : (-((n.log2 : Int) - (d.log2 : Int) - 1)).toNat = d.log2 + 1 - n.log2 := by omega
      rw [e1, e2, pow_zero, Nat.mul_one]
      have h3 : 2 ^ n.log2 * 2 ^ (d.log2 + 1 - n.log2) ≤ n * 2 ^ (d.log2 + 1 - n.log2) :=
        Nat.mul_le_mul_right _ h1
      rw [← pow_add] at h3
      have e3 : n.log2 + (d.log2 + 1 - n.log2) = d.log2 + 1 := by omega
      rw [e3] at h3
      omega

/-- With `2^e ≤ n / d` the scaled significand is at least `2^23`. -/
theorem significand_ge (n d : Nat) (e : Int)
    (h : d * 2 ^ e.toNat ≤ n * 2 ^ (-e).toNat) :
    2 ^ 23 * (d * 2 ^ (e - 23).toNat) ≤ n * 2 ^ (23 - e).toNat := by
  rcases le_or_lt 23 e with h1 | h1
  · obtain ⟨m, rfl⟩ : ∃ m : Nat, e = 23 + m := ⟨(e - 23).toNat, by omega⟩
    have e1 : ((23 : Int) + m).toNat = 23 + m := by omega
    have e2 : (-((23 : Int) + m)).toNat = 0 := by omega
    have e3 : ((23 : Int) + m - 23).toNat = m := by omega
    have e4 : ((23 : Int) - (23 + m)).toNat = 0 := by omega
    rw [e1, e2, pow_add] at h
    rw [e3, e4]
    calc 2 ^ 23 * (d * 2 ^ m) = d * (2 ^ 23 * 2 ^ m) := by ring
      _ ≤ n * 2 ^ 0 := h
  · rcases le_or_lt 0 e with h2 | h2
    · obtain ⟨m, rfl⟩ : ∃ m : Nat, e = m := ⟨e.toNat, by omega⟩
      have hm : m < 23 := by omega
      have e1 : ((m : Int)).toNat = m := by omega
      have e2 : (-(m : Int)).toNat = 0 := by omega
      have e3 : ((m : Int) - 23).toNat = 0 := by omega
      have e4 : ((23 : Int) - m).toNat = 23 - m := by omega
      rw [e1, e2] at h
      rw [e3, e4]
      have e5 : (2 : Nat) ^ 23 = 2 ^ m * 2 ^ (23 - m) := by
        rw [← pow_add]; congr 1; omega
      rw [e5]
      calc 2 ^ m * 2 ^ (23 - m) * (d * 2 ^ 0) = d * 2 ^ m * 2 ^ (23 - m) := by ring
        _ ≤ n * 2 ^ 0 * 2 ^ (23 - m) := Nat.mul_le_mul_right _ h
        _ = n * 2 ^ (23 - m) := by ring
    · obtain ⟨m, rfl⟩ : ∃ m : Nat, e = -(m : Int) := ⟨(-e).toNat, by omega⟩
      have e1 : (-(m : Int)).toNat = 0 := by omega
      have e2 : (-(-(m : Int))).toNat = m := by omega
      have e3 : (-(m : Int) - 23).toNat = 0 := by omega
      have e4 : ((23 : Int) - -(m : Int)).toNat = 23 + m := by omega
      rw [e1, e2] at h
      rw [e3, e4, pow_add]
      calc 2 ^ 23 * (d * 2 ^ 0) = 2 ^ 23 * (d * 2 ^ 0) := rfl
        _ ≤ 2 ^ 23 * (n * 2 ^ m) := Nat.mul_le_mul_left _ h
        _ = n * (2 ^ 23 * 2 ^ m) := by ring

/-- Rounding a positive rational to binary32 moves it by at most `2^-24` of
itself. -/
theorem round_pos_err (n d : Nat) (hn : 0 < n) (hd : 0 < d) :
    |round_pos n d - (n : ℚ) / d| * 2 ^ 24 ≤ (n : ℚ) / d := by
  have hL := significand_ge n d (f32_exponent n d) (f32_exponent_le n d hn)
  unfold round_pos
  simp only
  generalize (23 - f32_exponent n d).toNat = s1 at hL ⊢
  generalize (f32_exponent n d - 23).toNat = s2 at hL ⊢
  have hD : 0 < d * 2 ^ s2 := by positivity
  have hr := nearest_even_err (n * 2 ^ s1) (d * 2 ^ s2) hD
  generalize nearest_even (n * 2 ^ s1) (d * 2 ^ s2) = r at hr ⊢
  have hdq : (0 : ℚ) < d := by exact_mod_cast hd
  have hnq : (0 : ℚ) < n := by exact_mod_cast hn
  have p1 : (0 : ℚ) < 2 ^ s1 := by positivity
  have p2 : (0 : ℚ) < 2 ^ s2 := by positivity
  have hLq : (2 : ℚ) ^ 23 * ((d : ℚ) * 2 ^ s2) ≤ (n : ℚ) * 2 ^ s1 := by exact_mod_cast hL
  push_cast at hr ⊢
  have hc : (0 : ℚ) < 2 ^ s2 / 2 ^ s1 := by positivity
  have eN : (n : ℚ) / d = ((n : ℚ) * 2 ^ s1 / ((d : ℚ) * 2 ^ s2)) * (2 ^ s2 / 2 ^ s1) := by
    field_simp; ring
  have eR : (r : ℚ) * 2 ^ s2 / 2 ^ s1 - (n : ℚ) / d =
      ((r : ℚ) - (n : ℚ) * 2 ^ s1 / ((d : ℚ) * 2 ^ s2)) * (2 ^ s2 / 2 ^ s1) := by
    rw [eN]; field_simp; ring
  have hM : (2 : ℚ) ^ 23 ≤ (n : ℚ) * 2 ^ s1 / ((d : ℚ) * 2 ^ s2) := by
    rw [le_div_iff₀ (by positivity)]; exact hLq
  rw [eR, abs_mul, abs_of_pos hc]
  rw [eN]
  have h3 : |(r : ℚ) - (n : ℚ) * 2 ^ s1 / ((d : ℚ) * 2 ^ s2)| * 2 ^ 24 ≤
      (n : ℚ) * 2 ^ s1 / ((d : ℚ) * 2 ^ s2) := by
    calc |(r : ℚ) - (n : ℚ) * 2 ^ s1 / ((d : ℚ) * 2 ^ s2)| * 2 ^ 24 ≤ 1 / 2 * 2 ^ 24 :=
          mul_le_mul_of_nonneg_right hr (by positivity)
      _ = 2 ^ 23 := by norm_num
      _ ≤ _ := hM
  calc |(r : ℚ) - (n : ℚ) * 2 ^ s1 / ((d : ℚ) * 2 ^ s2)| * (2 ^ s2 / 2 ^ s1) * 2 ^ 24
      = |(r : ℚ) - (n : ℚ) * 2 ^ s1 / ((d : ℚ) * 2 ^ s2)| * 2 ^ 24 * (2 ^ s2 / 2 ^ s1) := by ring
    _ ≤ _ := mul_le_mul_of_nonneg_right h3 hc.le

/-- Rounding to binary32 moves a number by at most `2^-24` of itself. -/
theorem round_f32_err (q : ℚ) : |round_f32 q - q| * 2 ^ 24 ≤ |q| := by
  unfold round_f32
  by_cases h0 : q.num = 0
  · have : q = 0 := Rat.zero_iff_num_zero.mpr h0
    subst this
    simp
  · rw [if_neg h0]
    have hd : 0 < q.den := q.den_pos
    have hn : 0 < q.num.natAbs := Int.natAbs_pos.mpr h0
    have hb := round_pos_err q.num.natAbs q.den hn hd
    have hq : q = (q.num : ℚ) / (q.den : ℚ) := (Rat.num_div_den q).symm
    by_cases hneg : q.num < 0
    · rw [if_pos hneg]
      have e1 : ((q.num.natAbs : Nat) : ℚ) = -(q.num : ℚ) := by
        rw [Nat.cast_natAbs, abs_of_neg hneg, Int.cast_neg]
      have e2 : (q.num.natAbs : ℚ) / q.den = -q := by
        rw [e1, neg_div, ← hq]
      rw [e2] at hb
      have e3 : -1 * round_pos q.num.natAbs q.den - q =
          -(round_pos q.num.natAbs q.den - -q) := by ring
      have hqneg : q < 0 := Rat.num_neg.mp hneg
      rw [e3, abs_neg, abs_of_neg hqneg]
      exact hb
    · rw [if_neg hneg]
      have e1 : ((q.num.natAbs : Nat) : ℚ) = (q.num : ℚ) := by
        rw [Nat.cast_natAbs, abs_of_nonneg (by omega)]
      have e2 : (q.num.natAbs : ℚ) / q.den = q := by
        rw [e1, ← hq]
      rw [e2] at hb
      have hqpos : 0 ≤ q := Rat.num_nonneg.mp (by omega)
      rw [one_mul, abs_of_nonneg hqpos]
      exact hb

/-- The pressure that line 215 stores differs from the quotient
`diff / 10000` by at most `2^-22` of that quotient. -/
theorem pressure_f32_err (diff : Int) :
    |pressure_f32 diff - (diff : ℚ) / 10000| * 2 ^ 22 ≤ |(diff : ℚ)| / 10000 := by
  simp only [pressure_f32, SCALE_FACTOR]
  have h1 := round_f32_err (diff : ℚ)
  have h2 := round_f32_err (round_f32 (diff : ℚ) / 10000)
  generalize round_f32 (round_f32 (diff : ℚ) / 10000) = y at h2 ⊢
  generalize round_f32 (diff : ℚ) = x at h1 h2 ⊢
  generalize (diff : ℚ) = t at h1 ⊢
  have a1 : |x / 10000 - t / 10000| = |x - t| / 10000 := by
    rw [← sub_div, abs_div]; norm_num
  have a2 : |x / 10000| ≤ |t| / 10000 + |x - t| / 10000 := by
    have : x / 10000 = t / 10000 + (x / 10000 - t / 10000) := by ring
    rw [this]
    refine (abs_add _ _).trans ?_
    rw [a1, abs_div]; norm_num
  have a3 : |y - t / 10000| ≤ |y - x / 10000| + |x - t| / 10000 := by
    have : y - t / 10000 = (y - x / 10000) + (x / 10000 - t / 10000) := by ring
    rw [this]
    refine (abs_add _ _).trans ?_
    rw [a1]
  have p0 : 0 ≤ |t| := abs_nonneg t
  have p1 : 0 ≤ |x - t| := abs_nonneg _
  have p2 : 0 ≤ |y - x / 10000| := abs_nonneg _
  norm_num at h1 h2 ⊢
  nlinarith

/-- The exponent is not too small: `n / d < 2^(e+1)`. -/
theorem f32_exponent_lt (n d : Nat) (hd : 0 < d) :
    n * 2 ^ (-(f32_exponent n d + 1)).toNat < d * 2 ^ (f32_exponent n d + 1).toNat := by
  unfold f32_exponent
  simp only [floor_log2_eq]
  split_ifs with h
  · have h1 : n < 2 ^ (n.log2 + 1) := Nat.lt_log2_self
    have h2 : 2 ^ d.log2 ≤ d := Nat.log2_self_le (by omega)
    by_cases hk : d.log2 ≤ n.log2 + 1
    · have e1 : (-((n.log2 : Int) - (d.log2 : Int) + 1)).toNat = 0 := by omega
      have e2 : ((n.log2 : Int) - (d.log2 : Int) + 1).toNat = n.log2 + 1 - d.log2 := by omega
      rw [e1, e2, pow_zero, Nat.mul_one]
      have h3 : 2 ^ d.log2 * 2 ^ (n.log2 + 1 - d.log2) ≤ d * 2 ^ (n.log2 + 1 - d.log2) :=
        Nat.mul_le_mul_right _ h2
      rw [← pow_add] at h3
      have e3 : d.log2 + (n.log2 + 1 - d.log2) = n.log2 + 1 := by omega
      rw [e3] at h3
      omega
    · have e1 : (-((n.log2 : Int) - (d.log2 : Int) + 1)).toNat = d.log2 - n.log2 - 1 := by omega
      have e2 : ((n.log2 : Int) - (d.log2 : Int) + 1).toNat = 0 := by omega
      rw [e1, e2, pow_zero, Nat.mul_one]
      have h3 : n * 2 ^ (d.log2 - n.log2 - 1) < 2 ^ (n.log2 + 1) * 2 ^ (d.log2 - n.log2 - 1) :=
        Nat.mul_lt_mul_of_pos_right h1 (by positivity)
      rw [← pow_add] at h3
      have e3 : n.log2 + 1 + (d.log2 - n.log2 - 1) = d.log2 := by omega
      rw [e3] at h3
      omega
  · rw [sub_add_cancel]
    omega

/-- With `n / d < 2^(e+1)` the scaled significand is below `2^24`. -/
theorem significand_lt (n d : Nat) (e : Int)
    (h : n * 2 ^ (-(e + 1)).toNat < d * 2 ^ (e + 1).toNat) :
    n * 2 ^ (23 - e).toNat < 2 ^ 24 * (d * 2 ^ (e - 23).toNat) := by
  rcases le_or_lt 23 e with h1 | h1
  · obtain ⟨m, rfl⟩ : ∃ m : Nat, e = 23 + m := ⟨(e - 23).toNat, by omega⟩
    have e1 : ((23 : Int) + m + 1).toNat = 24 + m := by omega
    have e2 : (-((23 : Int) + m + 1)).toNat = 0 := by omega
    have e3 : ((23 : Int) + m - 23).toNat = m := by omega
    have e4 : ((23 : Int) - (23 + m)).toNat = 0 := by omega
    rw [e1, e2, pow_add] at h
    rw [e3, e4]
    calc n * 2 ^ 0 < d * (2 ^ 24 * 2 ^ m) := h
      _ = 2 ^ 24 * (d * 2 ^ m) := by ring
  · rcases le_or_lt (-1) e with h2 | h2
    · obtain ⟨m, rfl⟩ : ∃ m : Nat, e = (m : Int) - 1 := ⟨(e + 1).toNat, by omega⟩
      have hm : m ≤ 23 := by omega
      have e1 : ((m : Int) - 1 + 1).toNat = m := by omega
      have e2 : (-((m : Int) - 1 + 1)).toNat = 0 := by omega
      have e3 : ((m : Int) - 1 - 23).toNat = 0 := by omega
      have e4 : ((23 : Int) - ((m : Int) - 1)).toNat = 24 - m := by omega
      rw [e1, e2] at h
      rw [e3, e4]
      have e5 : (2 : Nat) ^ 24 = 2 ^ m * 2 ^ (24 - m) := by
        rw [← pow_add]; congr 1; omega
      rw [e5]
      calc n * 2 ^ (24 - m) = n * 2 ^ 0 * 2 ^ (24 - m) := by ring
        _ < d * 2 ^ m * 2 ^ (24 - m) := Nat.mul_lt_mul_of_pos_right h (by positivity)
        _ = 2 ^ m * 2 ^ (24 - m) * (d * 2 ^ 0) := by ring
    · obtain ⟨m, rfl⟩ : ∃ m : Nat, e = -(m : Int) - 1 := ⟨(-(e + 1)).toNat, by omega⟩
      have e1 : (-(m : Int) - 1 + 1).toNat = 0 := by omega
      have e2 : (-(-(m : Int) - 1 + 1)).toNat = m := by omega
      have e3 : (-(m : Int) - 1 - 23).toNat = 0 := by omega
      have e4 : ((23 : Int) - (-(m : Int) - 1)).toNat = 24 + m := by omega
      rw [e1, e2] at h
      rw [e3, e4, pow_add]
      calc n * (2 ^ 24 * 2 ^ m) = 2 ^ 24 * (n * 2 ^ m) := by ring
        _ < 2 ^ 24 * (d * 2 ^ 0) := Nat.mul_lt_mul_of_pos_left h (by positivity)

/-- The rounded value is a binary32 number: a significand between `2^23` and
`2^24` times a power of two. -/
theorem round_pos_significand (n d : Nat) (hn : 0 < n) (hd : 0 < d) :
    ∃ m : Nat, 2 ^ 23 ≤ m ∧ m ≤ 2 ^ 24 ∧
      round_pos n d = (m : ℚ) * 2 ^ (f32_exponent n d - 23).toNat /
        2 ^ (23 - f32_exponent n d).toNat := by
  have hL := significand_ge n d (f32_exponent n d) (f32_exponent_le n d hn)
  have hU := significand_lt n d (f32_exponent n d) (f32_exponent_lt n d hd)
  unfold round_pos
  simp only
  generalize (23 - f32_exponent n d).toNat = s1 at hL hU ⊢
  generalize (f32_exponent n d - 23).toNat = s2 at hL hU ⊢
  have hD : 0 < d * 2 ^ s2 := by positivity
  generalize d * 2 ^ s2 = D at hL hU hD ⊢
  generalize n * 2 ^ s1 = N at hL hU ⊢
  have f1 : 2 ^ 23 ≤ N / D := (Nat.le_div_iff_mul_le hD).mpr hL
  have f2 : N / D < 2 ^ 24 := (Nat.div_lt_iff_lt_mul hD).mpr hU
  refine ⟨nearest_even N D, ?_, ?_, by push_cast; rfl⟩
  · unfold nearest_even
    split_ifs <;> omega
  · unfold nearest_even
    split_ifs <;> omega

/-- C6 as stated fails: with `r1 = 1050` and the other three operands `1000`,
all below `2^24`, `diff` is 50 and the pressure that line 215 stores is the
binary32 number `5368709 / 2^30`, not `50 / 10000`. -/
theorem pressure_f32_inexact :
    (1050 : Nat) < 2 ^ 24 ∧ (1000 : Nat) < 2 ^ 24 ∧
      diff32 1050 1000 1000 1000 = 50 ∧
      pressure_f32 (diff32 1050 1000 1000 1000) = 5368709 / 1073741824 ∧
      pressure_f32 (diff32 1050 1000 1000 1000) ≠
        (((1050 : Nat) : ℚ) - (1000 : Nat) - (((1000 : Nat) : ℚ) - (1000 : Nat))) / 10000 := by
  have hv : pressure_f32 (diff32 1050 1000 1000 1000) = 5368709 / 1073741824 := by decide!
  refine ⟨by decide, by decide, by decide, hv, ?_⟩
  rw [hv]
  norm_num

/-- C6 (amended): for filtered codes and offsets below `2^24`, the 32-bit
expression of line 214 is the integer `(r1 - offset1) - (r2 - offset2)`, with
no wrap-around, and the pressure that line 215 stores is the binary32 number
got by converting that integer to binary32 and dividing by 10000, each
rounded to nearest; it differs from that integer divided by 10000 by at most
`2^-22` of it. -/
theorem diff32_exact (r1 offset1 r2 offset2 : Nat) (h1 : r1 < 2 ^ 24) (h2 : offset1 < 2 ^ 24)
    (h3 : r2 < 2 ^ 24) (h4 : offset2 < 2 ^ 24) :
    diff32 r1 offset1 r2 offset2 = ((r1 : Int) - offset1) - ((r2 : Int) - offset2) ∧
      pressure_f32 (diff32 r1 offset1 r2 offset2) =
        round_f32 (round_f32 (((r1 : ℚ) - offset1) - ((r2 : ℚ) - offset2)) / 10000) ∧
      |pressure_f32 (diff32 r1 offset1 r2 offset2) -
          (((r1 : ℚ) - offset1) - ((r2 : ℚ) - offset2)) / 10000| * 2 ^ 22 ≤
        |(((r1 : ℚ) - offset1) - ((r2 : ℚ) - offset2)) / 10000| := by
  have key : diff32 r1 offset1 r2 offset2 = ((r1 : Int) - offset1) - ((r2 : Int) - offset2) := by
    simp only [diff32, to_int32, sub_u32]
    norm_num at h1 h2 h3 h4 ⊢
    omega
  have hq : ((((r1 : Int) - offset1) - ((r2 : Int) - offset2) : Int) : ℚ) =
      ((r1 : ℚ) - offset1) - ((r2 : ℚ) - offset2) := by push_cast; ring
  refine ⟨key, ?_, ?_⟩
  · rw [key]
    simp only [pressure_f32, SCALE_FACTOR, hq]
  · have hb := pressure_f32_err (diff32 r1 offset1 r2 offset2)
    rw [key, hq] at hb
    rw [key, abs_div]
    norm_num at hb ⊢
    exact hb

/-- An instance where the `uint32_t` subtraction `r1 - offset1` wraps and the
integer, `-16777265`, is not a binary32 number. -/
theorem diff32_exact_witness :
    diff32 1000 1050 16777215 0 =
        ((1000 : Nat) : Int) - (1050 : Nat) - (((16777215 : Nat) : Int) - (0 : Nat)) ∧
      pressure_f32 (diff32 1000 1050 16777215 0) =
        round_f32 (round_f32 ((((1000 : Nat) : ℚ) - (1050 : Nat)) -
          (((16777215 : Nat) : ℚ) - (0 : Nat))) / 10000) ∧
      |pressure_f32 (diff32 1000 1050 16777215 0) -
          ((((1000 : Nat) : ℚ) - (1050 : Nat)) -
            (((16777215 : Nat) : ℚ) - (0 : Nat))) / 10000| * 2 ^ 22 ≤
        |((((1000 : Nat) : ℚ) - (1050 : Nat)) -
            (((16777215 : Nat) : ℚ) - (0 : Nat))) / 10000| :=
  diff32_exact 1000 1050 16777215 0 (by decide) (by decide) (by decide) (by decide)

/-- The pressures stored for some differences: `-16777265` gives
`-1677.7264404296875`, `1000` gives `13421773 / 2^27`, and `257500` gives
`25.75` with no rounding. -/
theorem pressure_f32_values :
    pressure_f32 (diff32 1000 1050 16777215 0) = -13743935 / 8192 ∧
      pressure_f32 1000 = 13421773 / 134217728 ∧
      pressure_f32 257500 = pressure_kpa 257500 := by
  refine ⟨by decide!, by decide!, by decide!⟩

/-! ## Actuation -/

theorem testBit_reg_set (x b j : Nat) (hj : j < 8) :
    (reg_set x b).testBit j = (x.testBit j || decide (j = b)) := by
  have h256 : (256 : Nat) = 2 ^ 8 := by norm_num
  simp only [reg_set, h256, Nat.testBit_mod_two_pow, Nat.testBit_or, Nat.one_shiftLeft,
    Nat.testBit_two_pow, hj, decide_True, Bool.true_and]
  congr 1
  simp [eq_comm]

theorem testBit_reg_clear (x b j : Nat) (hj : j < 8) :
    (reg_clear x b).testBit j = (x.testBit j && decide (j ≠ b)) := by
  have h256 : (256 : Nat) = 2 ^ 8 := by norm_num
  have hff : (0xFFFF : Nat) = 2 ^ 16 - 1 := by norm_num
  have h16 : j < 16 := by omega
  simp only [reg_clear, h256, hff, Nat.testBit_mod_two_pow, Nat.testBit_and, Nat.testBit_xor,
    Nat.one_shiftLeft, Nat.testBit_two_pow, Nat.testBit_two_pow_sub_one, hj, h16, decide_True,
    Bool.true_and, Bool.true_xor]
  congr 1
  by_cases hb : b = j <;> simp [hb, eq_comm]

theorem step_count_le (pressure : ℚ) : step_count pressure ≤ 50 := by
  simp only [step_count]
  split <;> omega

theorem step_pulses_append_outC (lvl : Bool) (v : Nat) (evs : List Event) :
    step_pulses lvl (Event.outC v :: evs) = step_pulses lvl evs := by
  simp [step_pulses]

/-- The trace of `n` motor steps: at most `n` rising edges of the step line,
exactly `n` when the line is low before, and the line is low after. -/
theorem motor_steps_pulses (n : Nat) (h : Hw) :
    ∃ evs, (motor_steps n h).trace = evs.reverse ++ h.trace ∧
      (∀ lvl, step_pulses lvl evs ≤ n) ∧ step_pulses false evs = n ∧
      (motor_steps n h).portc = h.portc ∧ (motor_steps n h).portb = h.portb ∧
      (motor_steps n h).pinc = h.pinc ∧
      (0 < n → (motor_steps n h).portd.testBit MOTOR_STEP_PD = false) := by
  induction n generalizing h with
  | zero => exact ⟨[], by simp [motor_steps], by simp [step_pulses], by simp [step_pulses],
      rfl, rfl, rfl, by simp⟩
  | succ n ih =>
    obtain ⟨evs, htr, hle, heq, hc, hb, hp, hd⟩ := ih (motor_step h)
    have hset : (reg_set h.portd MOTOR_STEP_PD).testBit MOTOR_STEP_PD = true := by
      rw [testBit_reg_set _ _ _ (by decide)]; simp
    have hclr : (reg_clear (reg_set h.portd MOTOR_STEP_PD) MOTOR_STEP_PD).testBit MOTOR_STEP_PD
        = false := by
      rw [testBit_reg_clear _ _ _ (by decide)]; simp
    refine ⟨[Event.outD (reg_set h.portd MOTOR_STEP_PD), Event.delay_us 800,
      Event.outD (reg_clear (reg_set h.portd MOTOR_STEP_PD) MOTOR_STEP_PD),
      Event.delay_us 800] ++ evs, ?_, ?_, ?_, ?_, ?_, ?_, ?_⟩
    · simp only [motor_steps, htr]
      simp [motor_step, write_portd, delay_us]
    · intro lvl
      have := hle false
      simp only [List.cons_append, List.nil_append, step_pulses, hset, hclr]
      cases lvl <;> simp <;> omega
    · simp only [List.cons_append, List.nil_append, step_pulses, hset, hclr, heq]
      simp; omega
    · simp only [motor_steps, hc]; simp [motor_step, write_portd, delay_us]
    · simp only [motor_steps, hb]; simp [motor_step, write_portd, delay_us]
    · simp only [motor_steps, hp]; simp [motor_step, write_portd, delay_us]
    · intro _
      simp only [motor_steps]
      cases n with
      | zero => simpa [motor_steps, motor_step, write_portd, delay_us] using hclr
      | succ m => exact hd (by omega)

theorem steps_issued_self (h : Hw) : steps_issued h h = 0 := by
  simp [steps_issued, step_pulses]

theorem steps_issued_of_trace (h h2 : Hw) (evs : List Event)
    (htr : h2.trace = evs.reverse ++ h.trace) :
    steps_issued h h2 = step_pulses (h.portd.testBit MOTOR_STEP_PD) evs := by
  simp [steps_issued, htr]

theorem actuate_deadband (h : Hw) (pressure : ℚ) (hlo : -0.10 ≤ pressure)
    (hhi : pressure ≤ 0.10) : actuate h pressure = h := by
  have : ¬ (pressure > 0.10 ∨ pressure < -0.10) := by
    rintro (h1 | h1)
    · exact absurd hhi (not_le.mpr h1)
    · exact absurd hlo (not_le.mpr h1)
  simp only [actuate, this, if_false]

/-- C3: for every pressure with `-0.10 ≤ pressure ≤ 0.10`, both bounds
included, the actuation issues no motor step, leaves the direction bit of
`PORTC` as it was, and touches no pin at all. -/
theorem deadband_no_actuation (h : Hw) (pressure : ℚ) (hlo : -0.10 ≤ pressure)
    (hhi : pressure ≤ 0.10) :
    steps_issued h (actuate h pressure) = 0 ∧
      (actuate h pressure).portc.testBit MOTOR_DIR_PC = h.portc.testBit MOTOR_DIR_PC ∧
      (actuate h pressure).trace = h.trace := by
  rw [actuate_deadband h pressure hlo hhi]
  exact ⟨steps_issued_self h, rfl, rfl⟩

/-- The scenario of the specification: filtered codes 1050 and 1000 with both
offsets 1000 give the pressure 0.005, inside the deadband. -/
theorem deadband_no_actuation_witness :
    pressure_kpa (diff32 1050 1000 1000 1000) = 0.005 ∧
      steps_issued (Hw.reset []) (actuate (Hw.reset []) (pressure_kpa (diff32 1050 1000 1000 1000))) = 0 ∧
      (actuate (Hw.reset []) (pressure_kpa (diff32 1050 1000 1000 1000))).portc.testBit MOTOR_DIR_PC
        = (Hw.reset []).portc.testBit MOTOR_DIR_PC ∧
      (actuate (Hw.reset []) (pressure_kpa (diff32 1050 1000 1000 1000))).trace
        = (Hw.reset []).trace :=
  have hd : diff32 1050 1000 1000 1000 = 50 := by decide
  ⟨by rw [hd]; norm_num [pressure_kpa, SCALE_FACTOR],
   deadband_no_actuation (Hw.reset []) (pressure_kpa (diff32 1050 1000 1000 1000))
    (by rw [hd]; norm_num [pressure_kpa, SCALE_FACTOR])
    (by rw [hd]; norm_num [pressure_kpa, SCALE_FACTOR])⟩

theorem actuate_steps (h : Hw) (pressure : ℚ) (hout : pressure > 0.10 ∨ pressure < -0.10) :
    ∃ evs v, (actuate h pressure).trace = (Event.outC v :: evs).reverse ++ h.trace ∧
      (∀ lvl, step_pulses lvl evs ≤ step_count pressure) ∧
      step_pulses false evs = step_count pressure := by
  simp only [actuate, hout, if_true]
  split
  · obtain ⟨evs, htr, hle, heq, -⟩ := motor_steps_pulses (step_count pressure)
      (write_portc h (reg_set h.portc MOTOR_DIR_PC))
    exact ⟨evs, reg_set h.portc MOTOR_DIR_PC, by rw [htr]; simp [write_portc], hle, heq⟩
  · obtain ⟨evs, htr, hle, heq, -⟩ := motor_steps_pulses (step_count pressure)
      (write_portc h (reg_clear h.portc MOTOR_DIR_PC))
    exact ⟨evs, reg_clear h.portc MOTOR_DIR_PC, by rw [htr]; simp [write_portc], hle, heq⟩

theorem floor_pressure (d : Int) : ⌊|pressure_kpa d| * 10⌋ = |d| / 1000 := by
  have h : |pressure_kpa d| * 10 = ((|d| : Int) : ℚ) / ((1000 : Nat) : ℚ) := by
    simp only [pressure_kpa, SCALE_FACTOR, abs_div, Int.cast_abs]
    norm_num
    ring
  rw [h, Rat.floor_intCast_div_natCast]
  norm_num

theorem step_count_pressure_kpa (d : Int) :
    step_count (pressure_kpa d) =
      if d.natAbs / 1000 % 256 > 50 then 50 else d.natAbs / 1000 % 256 := by
  have : ⌊|pressure_kpa d| * 10⌋.toNat = d.natAbs / 1000 := by
    rw [floor_pressure, Int.abs_eq_natAbs]
    norm_cast
  simp only [step_count, this]

theorem actuate_pressure_kpa (h : Hw) (d : Int) :
    actuate h (pressure_kpa d) =
      if d > 1000 ∨ d < -1000 then
        motor_steps (if d.natAbs / 1000 % 256 > 50 then 50 else d.natAbs / 1000 % 256)
          (if d > 0 then write_portc h (reg_set h.portc MOTOR_DIR_PC)
           else write_portc h (reg_clear h.portc MOTOR_DIR_PC))
      else h := by
  have h1 : pressure_kpa d > 0.10 ↔ d > 1000 := by
    simp only [pressure_kpa, SCALE_FACTOR, gt_iff_lt]
    rw [lt_div_iff₀ (by norm_num)]
    norm_num
    exact_mod_cast Iff.rfl
  have h2 : pressure_kpa d < -0.10 ↔ d < -1000 := by
    simp only [pressure_kpa, SCALE_FACTOR]
    rw [div_lt_iff₀ (by norm_num)]
    norm_num
    exact_mod_cast Iff.rfl
  have h3 : pressure_kpa d > 0 ↔ d > 0 := by
    simp only [pressure_kpa, SCALE_FACTOR, gt_iff_lt]
    rw [lt_div_iff₀ (by norm_num)]
    norm_num
  simp only [actuate, h1, h2, h3, step_count_pressure_kpa]

/-- Below the wrap of the `uint8_t` conversion, that is for `|pressure| < 25.6`,
the local `steps` is `min(50, floor(|pressure| * 10))`. -/
theorem step_count_below_wrap (pressure : ℚ) (hp : |pressure| * 10 < 256) :
    step_count pressure = min 50 ⌊|pressure| * 10⌋.toNat := by
  have h1 : ⌊|pressure| * 10⌋ < 256 := by
    rw [Int.floor_lt]
    exact_mod_cast hp
  have h2 : ⌊|pressure| * 10⌋.toNat < 256 := by omega
  simp only [step_count, Nat.mod_eq_of_lt h2]
  split <;> omega

/-- Outside the deadband, below the wrap and with the step line low, the
actuation issues `min(50, floor(|pressure| * 10))` steps, at least one. -/
theorem steps_issued_below_wrap (h : Hw) (pressure : ℚ)
    (hout : pressure > 0.10 ∨ pressure < -0.10) (hp : |pressure| * 10 < 256)
    (hlow : h.portd.testBit MOTOR_STEP_PD = false) :
    steps_issued h (actuate h pressure) = min 50 ⌊|pressure| * 10⌋.toNat ∧
      1 ≤ steps_issued h (actuate h pressure) := by
  obtain ⟨evs, v, htr, -, heq⟩ := actuate_steps h pressure hout
  have hs : steps_issued h (actuate h pressure) = step_count pressure := by
    rw [steps_issued_of_trace h _ _ htr, step_pulses_append_outC, hlow, heq]
  have habs : (1 : ℚ) ≤ |pressure| * 10 := by
    rcases hout with h1 | h1
    · have : pressure ≤ |pressure| := le_abs_self pressure
      norm_num at h1
      linarith
    · have : -pressure ≤ |pressure| := neg_le_abs pressure
      norm_num at h1
      linarith
  have hfl : 1 ≤ ⌊|pressure| * 10⌋ := by
    rw [Int.le_floor]
    exact_mod_cast habs
  rw [hs, step_count_below_wrap pressure hp]
  refine ⟨rfl, ?_⟩
  have : 1 ≤ ⌊|pressure| * 10⌋.toNat := by omega
  omega

/-! ## The step line across a loop pass -/

theorem holds_step_refl (h : Hw) : holds_step h h :=
  ⟨[], by simp, by simp, rfl⟩

theorem holds_step_trans {a b c : Hw} (h1 : holds_step a b) (h2 : holds_step b c) :
    holds_step a c := by
  obtain ⟨e1, t1, k1, p1⟩ := h1
  obtain ⟨e2, t2, k2, p2⟩ := h2
  refine ⟨e1 ++ e2, by simp [t2, t1], ?_, by rw [p2, p1]⟩
  intro v hv
  rcases List.mem_append.mp hv with hv | hv
  · exact k1 v hv
  · rw [k2 v hv, p1]

/-- A step that adds one event other than a write to `PORTD` and keeps
`PORTD`. -/
theorem holds_step_event (h h2 : Hw) (e : Event) (htr : h2.trace = e :: h.trace)
    (hd : h2.portd = h.portd) (he : ∀ v, e ≠ Event.outD v) : holds_step h h2 := by
  refine ⟨[e], by simp [htr], ?_, by rw [hd]⟩
  intro v hv
  simp only [List.mem_singleton] at hv
  exact absurd hv.symm (he v)

theorem holds_step_write_portb (h : Hw) (v : Nat) : holds_step h (write_portb h v) :=
  holds_step_event h _ (Event.outB v) rfl rfl (by intro w hw; cases hw)

theorem holds_step_write_portc (h : Hw) (v : Nat) : holds_step h (write_portc h v) :=
  holds_step_event h _ (Event.outC v) rfl rfl (by intro w hw; cases hw)

theorem holds_step_delay_us (h : Hw) (n : Nat) : holds_step h (delay_us h n) :=
  holds_step_event h _ (Event.delay_us n) rfl rfl (by intro w hw; cases hw)

theorem holds_step_delay_ms (h : Hw) (n : Nat) : holds_step h (delay_ms h n) :=
  holds_step_event h _ (Event.delay_ms n) rfl rfl (by intro w hw; cases hw)

theorem holds_step_write_portd (h : Hw) (v : Nat)
    (hv : v.testBit MOTOR_STEP_PD = h.portd.testBit MOTOR_STEP_PD) :
    holds_step h (write_portd h v) := by
  refine ⟨[Event.outD v], by simp [write_portd], ?_, by simpa [write_portd] using hv⟩
  intro w hw
  simp only [List.mem_singleton, Event.outD.injEq] at hw
  rw [hw, hv]

theorem holds_step_lcd_enable (h : Hw) : holds_step h (lcd_enable h) := by
  unfold lcd_enable
  exact holds_step_trans (holds_step_trans (holds_step_trans (holds_step_write_portb _ _)
    (holds_step_delay_us _ _)) (holds_step_write_portb _ _)) (holds_step_delay_us _ _)

theorem lcd_nibble_keeps_step (portd nibble : Nat) :
    (((portd &&& (0xFFFF ^^^ ((1 <<< LCD_D6) ||| (1 <<< LCD_D7)))) |||
      ((nibble &&& 0x04) <<< (LCD_D6 - 2)) ||| ((nibble &&& 0x08) <<< (LCD_D7 - 3))) % 256).testBit
        MOTOR_STEP_PD = portd.testBit MOTOR_STEP_PD := by
  have h256 : (256 : Nat) = 2 ^ 8 := by norm_num
  have hmask : (0xFFFF ^^^ ((1 <<< LCD_D6) ||| (1 <<< LCD_D7))).testBit MOTOR_STEP_PD = true := by
    decide
  rw [h256, Nat.testBit_mod_two_pow, Nat.testBit_or, Nat.testBit_or, Nat.testBit_and, hmask,
    Nat.testBit_shiftLeft, Nat.testBit_shiftLeft]
  simp [MOTOR_STEP_PD, LCD_D6, LCD_D7]

theorem holds_step_lcd_send_nibble (h : Hw) (nibble : Nat) :
    holds_step h (lcd_send_nibble h nibble) := by
  unfold lcd_send_nibble
  refine holds_step_trans (holds_step_trans (holds_step_write_portb _ _)
    (holds_step_write_portd _ _ ?_)) (holds_step_lcd_enable _)
  exact lcd_nibble_keeps_step _ _

theorem holds_step_lcd_command (h : Hw) (cmd : Nat) : holds_step h (lcd_command h cmd) := by
  unfold lcd_command
  exact holds_step_trans (holds_step_trans (holds_step_trans (holds_step_write_portb _ _)
    (holds_step_lcd_send_nibble _ _)) (holds_step_lcd_send_nibble _ _)) (holds_step_delay_ms _ _)

theorem holds_step_lcd_data (h : Hw) (data : Nat) : holds_step h (lcd_data h data) := by
  unfold lcd_data
  exact holds_step_trans (holds_step_trans (holds_step_trans (holds_step_write_portb _ _)
    (holds_step_lcd_send_nibble _ _)) (holds_step_lcd_send_nibble _ _)) (holds_step_delay_ms _ _)

theorem holds_step_lcd_set_cursor (h : Hw) (row col : Nat) :
    holds_step h (lcd_set_cursor h row col) :=
  holds_step_lcd_command _ _

theorem holds_step_lcd_write_string (h : Hw) (str : List Nat) :
    holds_step h (lcd_write_string h str) := by
  induction str generalizing h with
  | nil => exact holds_step_refl h
  | cons c cs ih =>
    simp only [lcd_write_string]
    split
    · exact holds_step_refl h
    · exact holds_step_trans (holds_step_lcd_data h c) (ih _)

theorem hx710b_wait_trace (pin : Nat) (l : List Nat) (tr : List Event) (rest : List Nat)
    (tr2 : List Event) (hrun : hx710b_wait pin l tr = some (rest, tr2)) :
    ∃ evs : List Event, tr2 = evs.reverse ++ tr ∧ ∀ v, Event.outD v ∉ evs := by
  induction l generalizing tr with
  | nil => simp [hx710b_wait] at hrun
  | cons p ps ih =>
    simp only [hx710b_wait] at hrun
    split at hrun
    · obtain ⟨evs, he, hn⟩ := ih _ hrun
      refine ⟨Event.inC p :: evs, by simp [he], ?_⟩
      intro v hv
      simp only [List.mem_cons] at hv
      rcases hv with hv | hv
      · cases hv
      · exact hn v hv
    · simp only [Option.some.injEq, Prod.mk.injEq] at hrun
      exact ⟨[Event.inC p], by simp [← hrun.2], by simp⟩

theorem holds_step_read_pinc (h : Hw) (v : Nat) (h2 : Hw) (hrun : read_pinc h = some (v, h2)) :
    holds_step h h2 := by
  unfold read_pinc at hrun
  split at hrun
  · simp at hrun
  · simp only [Option.some.injEq, Prod.mk.injEq] at hrun
    obtain ⟨rfl, rfl⟩ := hrun
    exact holds_step_event h _ (Event.inC _) rfl rfl (by intro w hw; cases hw)

theorem holds_step_hx710b_bit (pin value : Nat) (h : Hw) (v2 : Nat) (h2 : Hw)
    (hrun : hx710b_bit pin value h = some (v2, h2)) : holds_step h h2 := by
  simp only [hx710b_bit] at hrun
  cases hr : read_pinc (write_portc h (reg_set h.portc HX_SCK)) with
  | none => simp [hr] at hrun
  | some q =>
    obtain ⟨p, h1⟩ := q
    simp only [hr, Option.some.injEq, Prod.mk.injEq] at hrun
    rw [← hrun.2]
    exact holds_step_trans (holds_step_trans (holds_step_write_portc _ _)
      (holds_step_read_pinc _ _ _ hr)) (holds_step_write_portc _ _)

theorem holds_step_hx710b_bits (pin n value : Nat) (h : Hw) (v2 : Nat) (h2 : Hw)
    (hrun : hx710b_bits pin n value h = some (v2, h2)) : holds_step h h2 := by
  induction n generalizing value h with
  | zero =>
    simp only [hx710b_bits, Option.some.injEq, Prod.mk.injEq] at hrun
    rw [← hrun.2]
    exact holds_step_refl h
  | succ n ih =>
    simp only [hx710b_bits] at hrun
    cases hb : hx710b_bit pin value h with
    | none => simp [hb] at hrun
    | some q =>
      obtain ⟨v1, h1⟩ := q
      simp only [hb] at hrun
      exact holds_step_trans (holds_step_hx710b_bit pin value h v1 h1 hb) (ih v1 h1 hrun)

theorem holds_step_hx710b_read (h : Hw) (pin value : Nat) (h2 : Hw)
    (hrun : hx710b_read h pin = some (value, h2)) : holds_step h h2 := by
  simp only [hx710b_read] at hrun
  cases hw : hx710b_wait pin h.pinc h.trace with
  | none => simp [hw] at hrun
  | some r =>
    obtain ⟨rest, tr⟩ := r
    simp only [hw] at hrun
    cases hb : hx710b_bits pin 24 0 { h with pinc := rest, trace := tr } with
    | none => simp [hb] at hrun
    | some q =>
      obtain ⟨v, h1⟩ := q
      simp only [hb, Option.some.injEq, Prod.mk.injEq] at hrun
      obtain ⟨evs, he, hn⟩ := hx710b_wait_trace pin h.pinc h.trace rest tr hw
      have h0 : holds_step h { h with pinc := rest, trace := tr } :=
        ⟨evs, he, fun v hv => absurd hv (hn v), rfl⟩
      rw [← hrun.2]
      exact holds_step_trans (holds_step_trans (holds_step_trans h0
        (holds_step_hx710b_bits pin 24 0 _ v h1 hb)) (holds_step_write_portc _ _))
        (holds_step_write_portc _ _)

theorem holds_step_filtered_avg (f : Filter) (h : Hw) (pin v : Nat) (f2 : Filter) (h2 : Hw)
    (hrun : filtered_avg f h pin = some (v, f2, h2)) : holds_step h h2 := by
  simp only [filtered_avg] at hrun
  cases hr : hx710b_read h pin with
  | none => simp [hr] at hrun
  | some q =>
    obtain ⟨c, h1⟩ := q
    simp only [hr, Option.some.injEq, Prod.mk.injEq] at hrun
    rw [← hrun.2.2]
    exact holds_step_hx710b_read h pin c h1 hr

theorem step_pulses_held (lvl : Bool) (evs rest : List Event)
    (hk : ∀ v, Event.outD v ∈ evs → v.testBit MOTOR_STEP_PD = lvl) :
    step_pulses lvl (evs ++ rest) = step_pulses lvl rest := by
  induction evs with
  | nil => rfl
  | cons e es ih =>
    have hes : ∀ v, Event.outD v ∈ es → v.testBit MOTOR_STEP_PD = lvl :=
      fun v hv => hk v (List.mem_cons_of_mem _ hv)
    cases e with
    | outD v =>
      have hv : v.testBit MOTOR_STEP_PD = lvl := hk v (List.mem_cons_self _ _)
      have ih2 := ih hes
      simp only [List.cons_append, step_pulses, hv]
      cases lvl <;> simpa using ih2
    | _ => simpa [step_pulses] using ih hes

/-- A run that keeps the step line and then actuates issues at most 50
steps. -/
theorem steps_issued_actuate_le (h hL : Hw) (pressure : ℚ) (hq : holds_step h hL) :
    steps_issued h (actuate hL pressure) ≤ 50 := by
  obtain ⟨evs, htr, hk, -⟩ := hq
  by_cases hout : pressure > 0.10 ∨ pressure < -0.10
  · obtain ⟨evsA, v, htrA, hle, -⟩ := actuate_steps hL pressure hout
    have : (actuate hL pressure).trace = (evs ++ Event.outC v :: evsA).reverse ++ h.trace := by
      rw [htrA, htr]; simp
    rw [steps_issued_of_trace h _ _ this, step_pulses_held _ _ _ hk, step_pulses_append_outC]
    exact le_trans (hle _) (step_count_le pressure)
  · have hA : actuate hL pressure = hL := by simp only [actuate, hout, if_false]
    have : hL.trace = (evs ++ []).reverse ++ h.trace := by simpa using htr
    rw [hA, steps_issued_of_trace h _ _ this, step_pulses_held _ _ _ hk]
    simp [step_pulses]

theorem loop_body_steps_le (dtostrf : ℚ → List Nat) (offset1 offset2 : Nat) (f : Filter)
    (h : Hw) (f2 : Filter) (h2 : Hw)
    (hrun : loop_body dtostrf offset1 offset2 f h = some (f2, h2)) :
    steps_issued h h2 ≤ 50 := by
  simp only [loop_body] at hrun
  cases h1 : filtered_avg f (delay_ms h 500) HX_DT1 with
  | none => simp [h1] at hrun
  | some q =>
    obtain ⟨r1, fa, ha⟩ := q
    simp only [h1] at hrun
    cases h3 : filtered_avg fa ha HX_DT2 with
    | none => simp [h3] at hrun
    | some q2 =>
      obtain ⟨r2, fb, hb⟩ := q2
      simp only [h3, Option.some.injEq, Prod.mk.injEq] at hrun
      rw [← hrun.2]
      apply steps_issued_actuate_le
      exact holds_step_trans (holds_step_trans (holds_step_trans (holds_step_trans
        (holds_step_trans (holds_step_trans (holds_step_delay_ms h 500)
        (holds_step_filtered_avg _ _ _ _ _ _ h1)) (holds_step_filtered_avg _ _ _ _ _ _ h3))
        (holds_step_lcd_set_cursor _ _ _)) (holds_step_lcd_write_string _ _))
        (holds_step_lcd_write_string _ _)) (holds_step_lcd_write_string _ _)

theorem loop_passes_succ (dtostrf : ℚ → List Nat) (offset1 offset2 n : Nat) (f : Filter)
    (h : Hw) :
    loop_passes dtostrf offset1 offset2 (n + 1) f h =
      (loop_passes dtostrf offset1 offset2 n f h).bind
        (fun r => loop_body dtostrf offset1 offset2 r.1 r.2) := by
  induction n generalizing f h with
  | zero =>
    simp only [loop_passes, Option.some_bind]
    cases loop_body dtostrf offset1 offset2 f h with
    | none => rfl
    | some r => rfl
  | succ n ih =>
    rw [loop_passes]
    cases hb : loop_body dtostrf offset1 offset2 f h with
    | none => simp [loop_passes, hb]
    | some r =>
      obtain ⟨f1, h1⟩ := r
      simp only [ih f1 h1]
      rw [loop_passes, hb]

theorem steps_in_pass_le (dtostrf : ℚ → List Nat) (n : Nat) (hw : Hw) (k : Nat)
    (hk : steps_in_pass dtostrf n hw = some k) : k ≤ 50 := by
  simp only [steps_in_pass, main] at hk
  cases hc : calibrate Filter.init (motor_init (hx710b_init (lcd_init hw))) with
  | none => simp [hc] at hk
  | some c =>
    obtain ⟨o1, o2, f, h⟩ := c
    simp only [hc, loop_passes_succ] at hk
    cases hp : loop_passes dtostrf o1 o2 n f h with
    | none => simp [hp] at hk
    | some a =>
      obtain ⟨fa, ha⟩ := a
      simp only [hp, Option.some_bind] at hk
      cases hb : loop_body dtostrf o1 o2 fa ha with
      | none => simp [hb] at hk
      | some b =>
        obtain ⟨fb, hb2⟩ := b
        simp only [hb, Option.map_some', Option.some.injEq] at hk
        rw [← hk]
        exact loop_body_steps_le dtostrf o1 o2 fa ha fb hb2 hb

/-- C9: for every pressure the actuation issues at most 50 motor steps, and so
does every pass of the loop of `main` (a pass that does not complete is blocked
in a sensor read and counts for 0). -/
theorem step_cap (h : Hw) (pressure : ℚ) (dtostrf : ℚ → List Nat) (n : Nat) (hw : Hw) :
    steps_issued h (actuate h pressure) ≤ 50 ∧ (steps_in_pass dtostrf n hw).getD 0 ≤ 50 := by
  refine ⟨?_, ?_⟩
  · simpa using steps_issued_actuate_le h h pressure (holds_step_refl h)
  · cases hk : steps_in_pass dtostrf n hw with
    | none => simp
    | some k => simpa using steps_in_pass_le dtostrf n hw k hk

/-! ## The code at the inputs where a claim fails -/

set_option maxRecDepth 100000 in
/-- C2, the code at a failing input: calibration leaves the offsets 0 and
257500, the first pass filters 257500 on both channels, so the pressure is
25.75; `min(50, floor(|pressure| * 10))` is 50, and the pass issues 1 step. -/
theorem step_count_wraps :
    (calibrate Filter.init (Hw.startup wrap_input)).map (fun r => (r.1, r.2.1)) =
        some (0, 257500) ∧
      (filter_run [HX_DT1, HX_DT2, HX_DT1, HX_DT2] Filter.init (Hw.reset wrap_input)).map
        Prod.fst = some [0, 257500, 257500, 257500] ∧
      pressure_kpa (diff32 257500 0 257500 257500) = 25.75 ∧
      min 50 ⌊|pressure_kpa (diff32 257500 0 257500 257500)| * 10⌋.toNat = 50 ∧
      step_count (pressure_kpa (diff32 257500 0 257500 257500)) = 1 ∧
      steps_in_pass (fun _ => c_str "25.75") 0 (Hw.reset wrap_input) = some 1 := by
  have hd : diff32 257500 0 257500 257500 = 257500 := by decide
  refine ⟨by decide!, by decide!, ?_, ?_, ?_, ?_⟩
  · rw [hd]; norm_num [pressure_kpa, SCALE_FACTOR]
  · rw [hd, floor_pressure]; decide
  · rw [hd, step_count_pressure_kpa]; decide
  · decide!

set_option maxRecDepth 100000 in
/-- C8, the code at a failing input: calibration leaves the offsets 0 and
256250, the first pass filters 256250 on both channels, so the pressure is
25.625, outside the deadband, and the pass issues no step. -/
theorem no_step_outside_deadband :
    (calibrate Filter.init (Hw.startup stall_input)).map (fun r => (r.1, r.2.1)) =
        some (0, 256250) ∧
      (filter_run [HX_DT1, HX_DT2, HX_DT1, HX_DT2] Filter.init (Hw.reset stall_input)).map
        Prod.fst = some [0, 256250, 256250, 256250] ∧
      pressure_kpa (diff32 256250 0 256250 256250) = 25.625 ∧
      pressure_kpa (diff32 256250 0 256250 256250) > 0.10 ∧
      step_count (pressure_kpa (diff32 256250 0 256250 256250)) = 0 ∧
      steps_in_pass (fun _ => c_str "25.62") 0 (Hw.reset stall_input) = some 0 := by
  have hd : diff32 256250 0 256250 256250 = 256250 := by decide
  refine ⟨by decide!, by decide!, ?_, ?_, ?_, ?_⟩
  · rw [hd]; norm_num [pressure_kpa, SCALE_FACTOR]
  · rw [hd]; norm_num [pressure_kpa, SCALE_FACTOR]
  · rw [hd, step_count_pressure_kpa]; decide
  · decide!

set_option maxRecDepth 100000 in
/-- C4, the code at a failing input: with the constant code 1000 on both
channels the calibration stage records the offsets 125 and 250. -/
theorem calibration_offsets_1000 :
    (read_codes [HX_DT1, HX_DT2] (Hw.reset const_input)).map Prod.fst = some [1000, 1000] ∧
      (calibrate Filter.init (Hw.startup const_input)).map
        (fun r => (r.1, r.2.1, r.2.2.1.buffer1)) =
        some (125, 250, [1000, 1000, 0, 0, 0, 0, 0, 0]) := by
  refine ⟨by decide!, by decide!⟩

set_option maxRecDepth 100000 in
/-- C5, the code at a failing input: channel 1 delivers 800 twice; the second
filtered value of channel 1 is 200 when channel 2 delivered 0 in between and
1200 when it delivered 8000. -/
theorem filter_shared_between_channels :
    (filter_run [HX_DT1, HX_DT2, HX_DT1] Filter.init
        (Hw.reset (hx_code HX_DT1 800 ++ hx_code HX_DT2 0 ++ hx_code HX_DT1 800))).map
        (fun r => (r.1, r.2.1)) =
        some ([100, 100, 200], { buffer1 := [800, 0, 800, 0, 0, 0, 0, 0], i1 := 3 }) ∧
      (filter_run [HX_DT1, HX_DT2, HX_DT1] Filter.init
        (Hw.reset (hx_code HX_DT1 800 ++ hx_code HX_DT2 8000 ++ hx_code HX_DT1 800))).map
        (fun r => (r.1, r.2.1)) =
        some ([100, 1100, 1200], { buffer1 := [800, 8000, 800, 0, 0, 0, 0, 0], i1 := 3 }) := by
  refine ⟨by decide!, by decide!⟩

/-! ## The filter state -/

/-- The summing loop of `filtered_avg` over an 8-slot buffer of 24-bit codes
is the exact sum, which stays below `2^27`. -/
theorem sum_loop_exact (buf : List Nat) (hlen : buf.length = 8) (hb : ∀ x ∈ buf, x < 2 ^ 24) :
    (List.range FILTER_DEPTH).foldl (fun sum i => (sum + buf.getD i 0) % 2 ^ 32) 0 = buf.sum ∧
      buf.sum < 2 ^ 27 := by
  obtain ⟨a0, a1, a2, a3, a4, a5, a6, a7, rfl⟩ := list_of_length_eight buf hlen
  have hr : List.range FILTER_DEPTH = [0, 1, 2, 3, 4, 5, 6, 7] := by decide
  simp only [List.mem_cons, List.mem_singleton, forall_eq_or_imp, forall_eq, List.not_mem_nil,
    false_imp_iff, implies_true, and_true] at hb
  obtain ⟨b0, b1, b2, b3, b4, b5, b6, b7⟩ := hb
  simp only [hr, List.foldl_cons, List.foldl_nil, List.getD_cons_zero, List.getD_cons_succ,
    List.sum_cons, List.sum_nil]
  omega

/-- What a call of `filtered_avg` that returns has done. -/
theorem filtered_avg_inv (f : Filter) (h : Hw) (pin : Nat) (q : Nat × Filter × Hw)
    (hcall : filtered_avg f h pin = some q) :
    ∃ c, hx710b_read h pin = some (c, q.2.2) ∧
      q.2.1 = { buffer1 := f.buffer1.set f.i1 c, i1 := (f.i1 + 1) % FILTER_DEPTH } ∧
      q.1 = (List.range FILTER_DEPTH).foldl
        (fun sum i => (sum + (f.buffer1.set f.i1 c).getD i 0) % 2 ^ 32) 0 / FILTER_DEPTH := by
  simp only [filtered_avg] at hcall
  cases hr : hx710b_read h pin with
  | none => simp [hr] at hcall
  | some r =>
    obtain ⟨c, h1⟩ := r
    simp only [hr, Option.some.injEq] at hcall
    subst hcall
    exact ⟨c, rfl, rfl, rfl⟩

/-- C17: when the 8 slots hold codes below `2^24`, a call of `filtered_avg`
whose read returns `c` stores `c` at the write index, the 32-bit sum of the
slots does not wrap (it is below `2^32`), and the value returned is the exact
truncating mean of the slots, itself below `2^24`. -/
theorem filtered_avg_no_overflow (f : Filter) (h h2 : Hw) (pin c : Nat)
    (hi : f.i1 < 8) (hlen : f.buffer1.length = 8) (hbnd : ∀ x ∈ f.buffer1, x < 2 ^ 24)
    (hrd : hx710b_read h pin = some (c, h2)) :
    ∃ v f2, filtered_avg f h pin = some (v, f2, h2) ∧ f2.buffer1 = f.buffer1.set f.i1 c ∧
      f2.buffer1.get? f.i1 = some c ∧
      f2.buffer1.sum < 2 ^ 32 ∧ v = f2.buffer1.sum / 8 ∧ v < 2 ^ 24 := by
  have hc : c < 2 ^ 24 := hx710b_read_lt h pin c h2 hrd
  have hlen2 : (f.buffer1.set f.i1 c).length = 8 := by simpa using hlen
  have hbnd2 : ∀ x ∈ f.buffer1.set f.i1 c, x < 2 ^ 24 := by
    intro x hx
    rcases List.mem_or_eq_of_mem_set hx with hx | hx
    · exact hbnd x hx
    · rw [hx]; exact hc
  obtain ⟨hsum, hlt⟩ := sum_loop_exact _ hlen2 hbnd2
  refine ⟨(f.buffer1.set f.i1 c).sum / 8, ⟨f.buffer1.set f.i1 c, (f.i1 + 1) % FILTER_DEPTH⟩,
    ?_, rfl, ?_, ?_, rfl, ?_⟩
  · simp only [filtered_avg, hrd, hsum]
    rfl
  · show (f.buffer1.set f.i1 c).get? f.i1 = some c
    rw [List.get?_eq_getElem?, List.getElem?_set_self (by omega)]
  · show (f.buffer1.set f.i1 c).sum < 2 ^ 32
    omega
  · show (f.buffer1.set f.i1 c).sum / 8 < 2 ^ 24
    omega

set_option maxRecDepth 100000 in
theorem filtered_avg_no_overflow_witness :
    ∃ v f2, filtered_avg full_scale full_scale_hw HX_DT2 = some (v, f2, full_scale_read.2) ∧
      f2.buffer1 = full_scale.buffer1.set full_scale.i1 full_scale_read.1 ∧
      f2.buffer1.get? full_scale.i1 = some full_scale_read.1 ∧
      f2.buffer1.sum < 2 ^ 32 ∧ v = f2.buffer1.sum / 8 ∧ v < 2 ^ 24 :=
  filtered_avg_no_overflow full_scale full_scale_hw full_scale_read.2 HX_DT2 full_scale_read.1
    (by decide) (by decide) (by decide) (by decide!)

theorem filter_run_index (pins : List Nat) (f : Filter) (h : Hw) (r : List Nat × Filter × Hw)
    (hlen : f.buffer1.length = 8) (hrun : filter_run pins f h = some r) :
    r.2.1.i1 % 8 = (f.i1 + pins.length) % 8 ∧ (pins ≠ [] → r.2.1.i1 < 8) ∧
      r.2.1.buffer1.length = 8 := by
  induction pins generalizing f h r with
  | nil =>
    simp only [filter_run, Option.some.injEq] at hrun
    subst hrun
    exact ⟨by simp, fun hne => absurd rfl hne, hlen⟩
  | cons pin pins ih =>
    simp only [filter_run] at hrun
    cases hc : filtered_avg f h pin with
    | none => simp [hc] at hrun
    | some q =>
      obtain ⟨c, -, hq, -⟩ := filtered_avg_inv f h pin q hc
      obtain ⟨v, f1, h1⟩ := q
      simp only at hq
      simp only [hc] at hrun
      cases hr : filter_run pins f1 h1 with
      | none => simp [hr] at hrun
      | some r1 =>
        obtain ⟨vs, f2, h2⟩ := r1
        simp only [hr, Option.some.injEq] at hrun
        subst hrun
        have hlen1 : f1.buffer1.length = 8 := by rw [hq]; simpa using hlen
        obtain ⟨e1, e2, e3⟩ := ih f1 h1 (vs, f2, h2) hlen1 hr
        simp only at e1 e2 e3
        have hi1 : f1.i1 = (f.i1 + 1) % 8 := by rw [hq]; rfl
        refine ⟨?_, ?_, e3⟩
        · simp only [List.length_cons] at e1 ⊢
          omega
        · intro _
          by_cases hp : pins = []
          · subst hp
            simp only [filter_run, Option.some.injEq, Prod.mk.injEq] at hr
            have : f2 = f1 := hr.2.1.symm
            show f2.i1 < 8
            rw [this, hi1]
            omega
          · exact e2 hp

/-- C15: after any number of calls of `filtered_avg` from the initial state
the write index is below 8 and equals the number of calls modulo 8, and the
buffer has 8 slots; one more call stores the code it read at that index,
leaves every other slot as it was, keeps the 8 slots and advances the index
modulo 8. -/
theorem filter_state_invariant (pins : List Nat) (h : Hw) (r : List Nat × Filter × Hw)
    (pin : Nat) (q : Nat × Filter × Hw)
    (hrun : filter_run pins Filter.init h = some r)
    (hcall : filtered_avg r.2.1 r.2.2 pin = some q) :
    r.2.1.i1 < 8 ∧ r.2.1.i1 = pins.length % 8 ∧ r.2.1.buffer1.length = 8 ∧
      q.2.1.i1 < 8 ∧ q.2.1.i1 = (pins.length + 1) % 8 ∧ q.2.1.buffer1.length = 8 ∧
      (∃ c, hx710b_read r.2.2 pin = some (c, q.2.2) ∧ q.2.1.buffer1.get? r.2.1.i1 = some c) ∧
      ∀ j, j ≠ r.2.1.i1 → q.2.1.buffer1.get? j = r.2.1.buffer1.get? j := by
  obtain ⟨e1, e2, e3⟩ := filter_run_index pins Filter.init h r (by decide) hrun
  have hi : r.2.1.i1 < 8 := by
    by_cases hp : pins = []
    · subst hp
      simp only [filter_run, Option.some.injEq] at hrun
      subst hrun
      show Filter.init.i1 < 8
      decide
    · exact e2 hp
  have hidx : r.2.1.i1 = pins.length % 8 := by
    have : Filter.init.i1 = 0 := rfl
    rw [this] at e1
    omega
  obtain ⟨c, hrd, hq, -⟩ := filtered_avg_inv r.2.1 r.2.2 pin q hcall
  refine ⟨hi, hidx, e3, ?_, ?_, ?_, ⟨c, hrd, ?_⟩, ?_⟩
  · rw [hq]; exact Nat.mod_lt _ (by decide)
  · rw [hq]; show (r.2.1.i1 + 1) % 8 = _; omega
  · rw [hq]; simpa using e3
  · rw [hq]
    show (r.2.1.buffer1.set r.2.1.i1 c).get? r.2.1.i1 = some c
    rw [List.get?_eq_getElem?, List.getElem?_set_self (by omega)]
  · intro j hj
    rw [hq]
    show (r.2.1.buffer1.set r.2.1.i1 c).get? j = _
    rw [List.get?_eq_getElem?, List.get?_eq_getElem?, List.getElem?_set_ne (Ne.symm hj)]

set_option maxRecDepth 100000 in
/-- The example run: eight calls, then a ninth that overwrites slot 0. -/
theorem filter_state_invariant_witness :
    demo_run.2.1.i1 < 8 ∧ demo_run.2.1.i1 = (demo_pins.take 8).length % 8 ∧
      demo_run.2.1.buffer1.length = 8 ∧
      demo_call.2.1.i1 < 8 ∧ demo_call.2.1.i1 = ((demo_pins.take 8).length + 1) % 8 ∧
      demo_call.2.1.buffer1.length = 8 ∧
      (∃ c, hx710b_read demo_run.2.2 HX_DT1 = some (c, demo_call.2.2) ∧
        demo_call.2.1.buffer1.get? demo_run.2.1.i1 = some c) ∧
      ∀ j, j ≠ demo_run.2.1.i1 → demo_call.2.1.buffer1.get? j = demo_run.2.1.buffer1.get? j :=
  filter_state_invariant (demo_pins.take 8) demo_hw demo_run HX_DT1 demo_call
    (by decide!) (by decide!)

/-! ## The RS485 line read -/

theorem rs485_readln_loop_run (maxlen : Int) (pre post : List Nat) (hpre : 10 ∉ pre)
    (i : Nat) (buf : Nat → Nat) (hi : (i : Int) ≤ maxlen - 1) :
    ∃ buf2, rs485_readln_loop maxlen (pre ++ 10 :: post) i buf =
        some (min (maxlen - 1).toNat (i + pre.length + 1), buf2, post) ∧
      (∀ j, j < i → buf2 j = buf j) ∧
      (∀ j, min (maxlen - 1).toNat (i + pre.length + 1) ≤ j → buf2 j = buf j) ∧
      ∀ j, i ≤ j → j < min (maxlen - 1).toNat (i + pre.length + 1) →
        buf2 j = (pre ++ [10]).getD (j - i) 0 := by
  induction pre generalizing i buf with
  | nil =>
    by_cases hlt : (i : Int) < maxlen - 1
    · refine ⟨Function.update buf i 10, ?_, ?_, ?_, ?_⟩
      · have hm : min (maxlen - 1).toNat (i + ([] : List Nat).length + 1) = i + 1 := by
          simp only [List.length_nil]; omega
        simp only [List.nil_append, rs485_readln_loop, hlt, if_true, hm]
      · intro j hj
        exact Function.update_noteq (by omega) _ _
      · intro j hj
        exact Function.update_noteq (by simp only [List.length_nil] at hj; omega) _ _
      · intro j h1 h2
        simp only [List.length_nil] at h2
        have : j = i := by omega
        subst this
        simp
    · refine ⟨buf, ?_, fun _ _ => rfl, fun _ _ => rfl, ?_⟩
      · have hm : min (maxlen - 1).toNat (i + ([] : List Nat).length + 1) = i := by
          simp only [List.length_nil]; omega
        simp only [List.nil_append, rs485_readln_loop, hlt, if_false, hm, if_true]
      · intro j h1 h2
        simp only [List.length_nil] at h2
        omega
  | cons c cs ih =>
    have hc : c ≠ 10 := fun h => hpre (by simp [h])
    have hcs : 10 ∉ cs := fun h => hpre (by simp [h])
    by_cases hlt : (i : Int) < maxlen - 1
    · obtain ⟨buf2, hrun, h1, h2, h3⟩ := ih hcs (i + 1) (Function.update buf i c)
        (by push_cast; omega)
      have hlen : i + 1 + cs.length + 1 = i + (c :: cs).length + 1 := by
        simp only [List.length_cons]; omega
      rw [hlen] at hrun h2 h3
      refine ⟨buf2, ?_, ?_, ?_, ?_⟩
      · simp only [List.cons_append, rs485_readln_loop, hlt, if_true, hc, if_false]
        exact hrun
      · intro j hj
        rw [h1 j (by omega)]
        exact Function.update_noteq (by omega) _ _
      · intro j hj
        rw [h2 j hj]
        refine Function.update_noteq ?_ _ _
        simp only [List.length_cons] at hj
        omega
      · intro j hj1 hj2
        by_cases hji : j = i
        · subst hji
          rw [h1 j (by omega)]
          simp
        · rw [h3 j (by omega) hj2]
          have : j - i = (j - (i + 1)) + 1 := by omega
          rw [this]
          simp
    · obtain ⟨buf2, hrun, h1, h2, h3⟩ := ih hcs i buf hi
      have hmin : min (maxlen - 1).toNat (i + cs.length + 1) =
          min (maxlen - 1).toNat (i + (c :: cs).length + 1) := by
        simp only [List.length_cons]; omega
      rw [hmin] at hrun h2 h3
      refine ⟨buf2, ?_, h1, h2, ?_⟩
      · simp only [List.cons_append, rs485_readln_loop, hlt, if_false, hc]
        exact hrun
      · intro j hj1 hj2
        simp only [List.length_cons] at hj2
        omega

/-- C19: for `maxlen ≥ 1` and a received stream `pre ++ '\n' :: post` with no
newline in `pre`, `rs485_readln` returns, having consumed the stream up to the
first newline; the count `i` is `min(maxlen - 1, |pre| + 1)`, at most
`maxlen - 1`; offsets below `i` hold the first `i` bytes received, offset `i`
holds NUL, and every offset above `i` (so every offset from `maxlen` on) is as
it was. -/
theorem rs485_readln_bounded (maxlen : Int) (hmax : 1 ≤ maxlen) (pre post : List Nat)
    (hpre : 10 ∉ pre) (buf : Nat → Nat) :
    ∃ i buf2, rs485_readln (pre ++ 10 :: post) buf maxlen = some (i, buf2, post) ∧
      i = min (maxlen - 1).toNat (pre.length + 1) ∧ (i : Int) ≤ maxlen - 1 ∧
      (∀ j, j < i → buf2 j = (pre ++ [10]).getD j 0) ∧ buf2 i = 0 ∧
      (∀ j, i < j → buf2 j = buf j) ∧ (∀ j : Nat, maxlen ≤ (j : Int) → buf2 j = buf j) := by
  obtain ⟨b, hrun, -, h2, h3⟩ := rs485_readln_loop_run maxlen pre post hpre 0 buf (by omega)
  simp only [Nat.zero_add] at hrun h2 h3
  have hgt : ∀ j, min (maxlen - 1).toNat (pre.length + 1) < j →
      Function.update b (min (maxlen - 1).toNat (pre.length + 1)) 0 j = buf j := by
    intro j hj
    rw [Function.update_noteq (by omega)]
    exact h2 j (by omega)
  refine ⟨min (maxlen - 1).toNat (pre.length + 1),
    Function.update b (min (maxlen - 1).toNat (pre.length + 1)) 0, ?_, rfl, ?_, ?_, ?_, hgt, ?_⟩
  · simp only [rs485_readln, hrun]
  · omega
  · intro j hj
    rw [Function.update_noteq (by omega)]
    simpa using h3 j (by omega) hj
  · simp
  · intro j hj
    exact hgt j (by omega)

/-- The stream `Hi!?` and a newline, read into a buffer of 4 bytes. -/
theorem rs485_readln_bounded_witness :
    ∃ i buf2, rs485_readln ([72, 105, 33, 63] ++ 10 :: [65]) (fun _ => 255) 4 =
        some (i, buf2, [65]) ∧
      i = min ((4 : Int) - 1).toNat ([72, 105, 33, 63].length + 1) ∧ (i : Int) ≤ 4 - 1 ∧
      (∀ j, j < i → buf2 j = ([72, 105, 33, 63] ++ [10]).getD j 0) ∧ buf2 i = 0 ∧
      (∀ j, i < j → buf2 j = (fun _ => 255) j) ∧
      (∀ j : Nat, (4 : Int) ≤ (j : Int) → buf2 j = (fun _ => 255) j) :=
  rs485_readln_bounded 4 (by decide) [72, 105, 33, 63] [65] (by decide) (fun _ => 255)

/-! ## The LCD data lines -/

theorem events_since_of_trace (h h2 : Hw) (evs : List Event)
    (htr : h2.trace = evs.reverse ++ h.trace) : events_since h h2 = evs := by
  simp [events_since, htr]

/-- What `lcd_send_nibble` leaves on the data lines: `PB1` (D4) is bit 0 or
bit 1 of the nibble, `PB0` (D5) is low, `PD7` (D6) is bit 2, `PD6` (D7) is
bit 3; `PB2` (E) ends low and the other bits of both ports are as before. -/
theorem lcd_send_nibble_bits (h : Hw) (nibble : Nat) :
    (lcd_send_nibble h nibble).portb.testBit LCD_D4 = (nibble.testBit 0 || nibble.testBit 1) ∧
      (lcd_send_nibble h nibble).portb.testBit LCD_D5 = false ∧
      (lcd_send_nibble h nibble).portd.testBit LCD_D6 = nibble.testBit 2 ∧
      (lcd_send_nibble h nibble).portd.testBit LCD_D7 = nibble.testBit 3 ∧
      (lcd_send_nibble h nibble).portb.testBit LCD_E = false ∧
      (∀ j, j < 8 → j ≠ LCD_D4 → j ≠ LCD_D5 → j ≠ LCD_E →
        (lcd_send_nibble h nibble).portb.testBit j = h.portb.testBit j) ∧
      (∀ j, j < 8 → j ≠ LCD_D6 → j ≠ LCD_D7 →
        (lcd_send_nibble h nibble).portd.testBit j = h.portd.testBit j) := by
  have h256 : (256 : Nat) = 2 ^ 8 := by norm_num
  have hb : ∀ j, j < 8 → (lcd_send_nibble h nibble).portb.testBit j =
      ((((h.portb &&& (0xFFFF ^^^ ((1 <<< LCD_D4) ||| (1 <<< LCD_D5)))) |||
        ((nibble % 256 &&& 0x01) <<< LCD_D4) ||| ((nibble % 256 &&& 0x02) <<< LCD_D5)) % 256).testBit j
        && decide (j ≠ LCD_E)) := by
    intro j hj
    simp only [lcd_send_nibble, lcd_enable, write_portb, write_portd, delay_us]
    rw [testBit_reg_clear _ _ _ hj, testBit_reg_set _ _ _ hj]
    by_cases hje : j = LCD_E <;> simp [hje]
  have hd : (lcd_send_nibble h nibble).portd =
      ((h.portd &&& (0xFFFF ^^^ ((1 <<< LCD_D6) ||| (1 <<< LCD_D7)))) |||
        ((nibble % 256 &&& 0x04) <<< (LCD_D6 - 2)) ||| ((nibble % 256 &&& 0x08) <<< (LCD_D7 - 3))) % 256 := by
    simp only [lcd_send_nibble, lcd_enable, write_portb, write_portd, delay_us]
  have hmb : ∀ j, j < 8 → (0xFFFF ^^^ ((1 <<< LCD_D4) ||| (1 <<< LCD_D5))).testBit j =
      decide (j ≠ LCD_D4 ∧ j ≠ LCD_D5) := by
    intro j hj; interval_cases j <;> decide
  have hmd : ∀ j, j < 8 → (0xFFFF ^^^ ((1 <<< LCD_D6) ||| (1 <<< LCD_D7))).testBit j =
      decide (j ≠ LCD_D6 ∧ j ≠ LCD_D7) := by
    intro j hj; interval_cases j <;> decide
  have hn : ∀ k, k < 8 → (nibble % 2 ^ 8).testBit k = nibble.testBit k := by
    intro k hk
    rw [Nat.testBit_mod_two_pow]
    simp [hk]
  have c1 : ∀ k, (0x01 : Nat).testBit k = decide (k = 0) := by
    intro k; rw [show (0x01 : Nat) = 2 ^ 0 by norm_num, Nat.testBit_two_pow]; simp [eq_comm]
  have c2 : ∀ k, (0x02 : Nat).testBit k = decide (k = 1) := by
    intro k; rw [show (0x02 : Nat) = 2 ^ 1 by norm_num, Nat.testBit_two_pow]; simp [eq_comm]
  have c4 : ∀ k, (0x04 : Nat).testBit k = decide (k = 2) := by
    intro k; rw [show (0x04 : Nat) = 2 ^ 2 by norm_num, Nat.testBit_two_pow]; simp [eq_comm]
  have c8 : ∀ k, (0x08 : Nat).testBit k = decide (k = 3) := by
    intro k; rw [show (0x08 : Nat) = 2 ^ 3 by norm_num, Nat.testBit_two_pow]; simp [eq_comm]
  have hbj : ∀ j, j < 8 → (lcd_send_nibble h nibble).portb.testBit j =
      (((h.portb.testBit j && decide (j ≠ LCD_D4 ∧ j ≠ LCD_D5)) ||
        (decide (j ≥ LCD_D4) && (nibble.testBit (j - LCD_D4) && decide (j - LCD_D4 = 0))) ||
        (decide (j ≥ LCD_D5) && (nibble.testBit (j - LCD_D5) && decide (j - LCD_D5 = 1))))
        && decide (j ≠ LCD_E)) := by
    intro j hj
    rw [hb j hj, h256, Nat.testBit_mod_two_pow, Nat.testBit_or, Nat.testBit_or, Nat.testBit_and,
      hmb j hj, Nat.testBit_shiftLeft, Nat.testBit_shiftLeft, Nat.testBit_and, Nat.testBit_and,
      c1, c2]
    have e1 : (nibble % 2 ^ 8).testBit (j - LCD_D4) = nibble.testBit (j - LCD_D4) :=
      hn _ (by omega)
    have e2 : (nibble % 2 ^ 8).testBit (j - LCD_D5) = nibble.testBit (j - LCD_D5) :=
      hn _ (by omega)
    rw [e1, e2]
    simp [hj]
  have hdj : ∀ j, j < 8 → (lcd_send_nibble h nibble).portd.testBit j =
      ((h.portd.testBit j && decide (j ≠ LCD_D6 ∧ j ≠ LCD_D7)) ||
        (decide (j ≥ LCD_D6 - 2) && (nibble.testBit (j - (LCD_D6 - 2)) &&
          decide (j - (LCD_D6 - 2) = 2))) ||
        (decide (j ≥ LCD_D7 - 3) && (nibble.testBit (j - (LCD_D7 - 3)) &&
          decide (j - (LCD_D7 - 3) = 3)))) := by
    intro j hj
    rw [hd, h256, Nat.testBit_mod_two_pow, Nat.testBit_or, Nat.testBit_or, Nat.testBit_and,
      hmd j hj, Nat.testBit_shiftLeft, Nat.testBit_shiftLeft, Nat.testBit_and, Nat.testBit_and,
      c4, c8]
    have e1 : (nibble % 2 ^ 8).testBit (j - (LCD_D6 - 2)) = nibble.testBit (j - (LCD_D6 - 2)) :=
      hn _ (by omega)
    have e2 : (nibble % 2 ^ 8).testBit (j - (LCD_D7 - 3)) = nibble.testBit (j - (LCD_D7 - 3)) :=
      hn _ (by omega)
    rw [e1, e2]
    simp [hj]
  refine ⟨?_, ?_, ?_, ?_, ?_, ?_, ?_⟩
  · rw [hbj _ (by decide)]; simp [LCD_D4, LCD_D5, LCD_E]
  · rw [hbj _ (by decide)]; simp [LCD_D4, LCD_D5, LCD_E]
  · rw [hdj _ (by decide)]; simp [LCD_D6, LCD_D7]
  · rw [hdj _ (by decide)]; simp [LCD_D6, LCD_D7]
  · rw [hbj _ (by decide)]; simp [LCD_E]
  · intro j hj h4 h5 he
    rw [hbj j hj]
    clear hb hd hbj hdj hmb hmd hn c1 c2 c4 c8 h256
    simp only [LCD_D4, LCD_D5, LCD_E] at h4 h5 he ⊢
    interval_cases j <;> simp_all
  · intro j hj h6 h7
    rw [hdj j hj]
    clear hb hd hbj hdj hmb hmd hn c1 c2 c4 c8 h256
    simp only [LCD_D6, LCD_D7] at h6 h7 ⊢
    interval_cases j <;> simp_all

/-- C18, the code at a failing input: for the nibble `0x02` with `PORTB` and
`PORTD` at 0, `lcd_send_nibble` writes `PORTB = 0x02`, so D4 (`PB1`) is high
and D5 (`PB0`) is low, the reverse of bit 0 and bit 1 of the nibble. -/
theorem lcd_nibble_d5_stuck :
    events_since (Hw.reset []) (lcd_send_nibble (Hw.reset []) 0x02) =
        [Event.outB 0x02, Event.outD 0x00, Event.outB 0x06, Event.delay_us 1,
          Event.outB 0x02, Event.delay_us 100] ∧
      (lcd_send_nibble (Hw.reset []) 0x02).portb.testBit LCD_D4 = true ∧
      (lcd_send_nibble (Hw.reset []) 0x02).portb.testBit LCD_D5 = false ∧
      (0x02 : Nat).testBit 0 = false ∧ (0x02 : Nat).testBit 1 = true := by
  decide

/-! ## The lines of `PORTC` across the program -/

theorem quiet_c_refl (h : Hw) : quiet_c h h :=
  ⟨[], by simp, by simp, rfl⟩

theorem quiet_c_trans {a b c : Hw} (h1 : quiet_c a b) (h2 : quiet_c b c) : quiet_c a c := by
  obtain ⟨e1, t1, k1, p1⟩ := h1
  obtain ⟨e2, t2, k2, p2⟩ := h2
  refine ⟨e1 ++ e2, by simp [t2, t1], ?_, by rw [p2, p1]⟩
  intro v hv
  rcases List.mem_append.mp hv with hv | hv
  · exact k1 v hv
  · exact k2 v hv

theorem quiet_c_event (h h2 : Hw) (e : Event) (htr : h2.trace = e :: h.trace)
    (hc : h2.portc = h.portc) (he : ∀ v, e ≠ Event.outC v) : quiet_c h h2 := by
  refine ⟨[e], by simp [htr], ?_, hc⟩
  intro v hv
  simp only [List.mem_singleton] at hv
  exact he v hv.symm

theorem quiet_c_write_portb (h : Hw) (v : Nat) : quiet_c h (write_portb h v) :=
  quiet_c_event h _ (Event.outB v) rfl rfl (by intro w hw; cases hw)

theorem quiet_c_write_portd (h : Hw) (v : Nat) : quiet_c h (write_portd h v) :=
  quiet_c_event h _ (Event.outD v) rfl rfl (by intro w hw; cases hw)

theorem quiet_c_delay_us (h : Hw) (n : Nat) : quiet_c h (delay_us h n) :=
  quiet_c_event h _ (Event.delay_us n) rfl rfl (by intro w hw; cases hw)

theorem quiet_c_delay_ms (h : Hw) (n : Nat) : quiet_c h (delay_ms h n) :=
  quiet_c_event h _ (Event.delay_ms n) rfl rfl (by intro w hw; cases hw)

theorem quiet_c_lcd_enable (h : Hw) : quiet_c h (lcd_enable h) := by
  unfold lcd_enable
  exact quiet_c_trans (quiet_c_trans (quiet_c_trans (quiet_c_write_portb _ _)
    (quiet_c_delay_us _ _)) (quiet_c_write_portb _ _)) (quiet_c_delay_us _ _)

theorem quiet_c_lcd_send_nibble (h : Hw) (nibble : Nat) : quiet_c h (lcd_send_nibble h nibble) := by
  unfold lcd_send_nibble
  exact quiet_c_trans (quiet_c_trans (quiet_c_write_portb _ _) (quiet_c_write_portd _ _))
    (quiet_c_lcd_enable _)

theorem quiet_c_lcd_command (h : Hw) (cmd : Nat) : quiet_c h (lcd_command h cmd) := by
  unfold lcd_command
  exact quiet_c_trans (quiet_c_trans (quiet_c_trans (quiet_c_write_portb _ _)
    (quiet_c_lcd_send_nibble _ _)) (quiet_c_lcd_send_nibble _ _)) (quiet_c_delay_ms _ _)

theorem quiet_c_lcd_data (h : Hw) (data : Nat) : quiet_c h (lcd_data h data) := by
  unfold lcd_data
  exact quiet_c_trans (quiet_c_trans (quiet_c_trans (quiet_c_write_portb _ _)
    (quiet_c_lcd_send_nibble _ _)) (quiet_c_lcd_send_nibble _ _)) (quiet_c_delay_ms _ _)

theorem quiet_c_lcd_set_cursor (h : Hw) (row col : Nat) : quiet_c h (lcd_set_cursor h row col) :=
  quiet_c_lcd_command _ _

theorem quiet_c_lcd_write_string (h : Hw) (str : List Nat) :
    quiet_c h (lcd_write_string h str) := by
  induction str generalizing h with
  | nil => exact quiet_c_refl h
  | cons c cs ih =>
    simp only [lcd_write_string]
    split
    · exact quiet_c_refl h
    · exact quiet_c_trans (quiet_c_lcd_data h c) (ih _)

theorem quiet_c_motor_step (h : Hw) : quiet_c h (motor_step h) := by
  unfold motor_step
  exact quiet_c_trans (quiet_c_trans (quiet_c_trans (quiet_c_write_portd _ _)
    (quiet_c_delay_us _ _)) (quiet_c_write_portd _ _)) (quiet_c_delay_us _ _)

theorem quiet_c_motor_steps (n : Nat) (h : Hw) : quiet_c h (motor_steps n h) := by
  induction n generalizing h with
  | zero => exact quiet_c_refl h
  | succ n ih => exact quiet_c_trans (quiet_c_motor_step h) (ih _)

theorem holds_portc_refl (j : Nat) (h : Hw) : holds_portc j h h :=
  ⟨[], by simp, by simp, rfl⟩

theorem holds_portc_trans {j : Nat} {a b c : Hw} (h1 : holds_portc j a b)
    (h2 : holds_portc j b c) : holds_portc j a c := by
  obtain ⟨e1, t1, k1, p1⟩ := h1
  obtain ⟨e2, t2, k2, p2⟩ := h2
  refine ⟨e1 ++ e2, by simp [t2, t1], ?_, by rw [p2, p1]⟩
  intro v hv
  rcases List.mem_append.mp hv with hv | hv
  · exact k1 v hv
  · rw [k2 v hv, p1]

theorem holds_portc_of_quiet {j : Nat} {h h2 : Hw} (hq : quiet_c h h2) : holds_portc j h h2 := by
  obtain ⟨evs, t, k, p⟩ := hq
  exact ⟨evs, t, fun v hv => absurd hv (k v), by rw [p]⟩

theorem holds_portc_write_portc (j : Nat) (h : Hw) (v : Nat)
    (hv : v.testBit j = h.portc.testBit j) : holds_portc j h (write_portc h v) := by
  refine ⟨[Event.outC v], by simp [write_portc], ?_, by simpa [write_portc] using hv⟩
  intro w hw
  simp only [List.mem_singleton, Event.outC.injEq] at hw
  rw [hw, hv]

/-- Setting or clearing another bit of `PORTC` keeps bit `j`. -/
theorem holds_portc_set (j b : Nat) (h : Hw) (hj : j < 8) (hb : j ≠ b) :
    holds_portc j h (write_portc h (reg_set h.portc b)) :=
  holds_portc_write_portc j h _ (by rw [testBit_reg_set _ _ _ hj]; simp [hb])

theorem holds_portc_clear (j b : Nat) (h : Hw) (hj : j < 8) (hb : j ≠ b) :
    holds_portc j h (write_portc h (reg_clear h.portc b)) :=
  holds_portc_write_portc j h _ (by rw [testBit_reg_clear _ _ _ hj]; simp [hb])

theorem quiet_c_read_pinc (h : Hw) (v : Nat) (h2 : Hw) (hrun : read_pinc h = some (v, h2)) :
    quiet_c h h2 := by
  unfold read_pinc at hrun
  split at hrun
  · simp at hrun
  · simp only [Option.some.injEq, Prod.mk.injEq] at hrun
    obtain ⟨rfl, rfl⟩ := hrun
    exact quiet_c_event h _ (Event.inC _) rfl rfl (by intro w hw; cases hw)

theorem hx710b_wait_reads (pin : Nat) (l : List Nat) (tr : List Event) (rest : List Nat)
    (tr2 : List Event) (hrun : hx710b_wait pin l tr = some (rest, tr2)) :
    ∃ evs : List Event, tr2 = evs.reverse ++ tr ∧ ∀ e ∈ evs, ∃ v, e = Event.inC v := by
  induction l generalizing tr with
  | nil => simp [hx710b_wait] at hrun
  | cons p ps ih =>
    simp only [hx710b_wait] at hrun
    split at hrun
    · obtain ⟨evs, he, hn⟩ := ih _ hrun
      refine ⟨Event.inC p :: evs, by simp [he], ?_⟩
      intro e hv
      simp only [List.mem_cons] at hv
      rcases hv with hv | hv
      · exact ⟨p, hv⟩
      · exact hn e hv
    · simp only [Option.some.injEq, Prod.mk.injEq] at hrun
      exact ⟨[Event.inC p], by simp [← hrun.2], by simp⟩

theorem holds_portc_hx710b_bit (j : Nat) (hj : j < 8) (hne : j ≠ HX_SCK) (pin value : Nat)
    (h : Hw) (v2 : Nat) (h2 : Hw) (hrun : hx710b_bit pin value h = some (v2, h2)) :
    holds_portc j h h2 := by
  simp only [hx710b_bit] at hrun
  cases hr : read_pinc (write_portc h (reg_set h.portc HX_SCK)) with
  | none => simp [hr] at hrun
  | some q =>
    obtain ⟨p, h1⟩ := q
    simp only [hr, Option.some.injEq, Prod.mk.injEq] at hrun
    rw [← hrun.2]
    exact holds_portc_trans (holds_portc_trans (holds_portc_set j HX_SCK h hj hne)
      (holds_portc_of_quiet (quiet_c_read_pinc _ _ _ hr))) (holds_portc_clear j HX_SCK h1 hj hne)

theorem holds_portc_hx710b_bits (j : Nat) (hj : j < 8) (hne : j ≠ HX_SCK) (pin n value : Nat)
    (h : Hw) (v2 : Nat) (h2 : Hw) (hrun : hx710b_bits pin n value h = some (v2, h2)) :
    holds_portc j h h2 := by
  induction n generalizing value h with
  | zero =>
    simp only [hx710b_bits, Option.some.injEq, Prod.mk.injEq] at hrun
    rw [← hrun.2]
    exact holds_portc_refl j h
  | succ n ih =>
    simp only [hx710b_bits] at hrun
    cases hb : hx710b_bit pin value h with
    | none => simp [hb] at hrun
    | some q =>
      obtain ⟨v1, h1⟩ := q
      simp only [hb] at hrun
      exact holds_portc_trans (holds_portc_hx710b_bit j hj hne pin value h v1 h1 hb)
        (ih v1 h1 hrun)

theorem holds_portc_hx710b_read (j : Nat) (hj : j < 8) (hne : j ≠ HX_SCK) (h : Hw)
    (pin value : Nat) (h2 : Hw) (hrun : hx710b_read h pin = some (value, h2)) :
    holds_portc j h h2 := by
  simp only [hx710b_read] at hrun
  cases hw : hx710b_wait pin h.pinc h.trace with
  | none => simp [hw] at hrun
  | some r =>
    obtain ⟨rest, tr⟩ := r
    simp only [hw] at hrun
    cases hb : hx710b_bits pin 24 0 { h with pinc := rest, trace := tr } with
    | none => simp [hb] at hrun
    | some q =>
      obtain ⟨v, h1⟩ := q
      simp only [hb, Option.some.injEq, Prod.mk.injEq] at hrun
      obtain ⟨evs, he, hn⟩ := hx710b_wait_reads pin h.pinc h.trace rest tr hw
      have h0 : holds_portc j h { h with pinc := rest, trace := tr } := by
        refine ⟨evs, he, ?_, rfl⟩
        intro v hv
        obtain ⟨w, hw2⟩ := hn _ hv
        cases hw2
      rw [← hrun.2]
      exact holds_portc_trans (holds_portc_trans (holds_portc_trans h0
        (holds_portc_hx710b_bits j hj hne pin 24 0 _ v h1 hb))
        (holds_portc_set j HX_SCK h1 hj hne)) (holds_portc_clear j HX_SCK _ hj hne)

theorem holds_portc_filtered_avg (j : Nat) (hj : j < 8) (hne : j ≠ HX_SCK) (f : Filter)
    (h : Hw) (pin : Nat) (q : Nat × Filter × Hw) (hrun : filtered_avg f h pin = some q) :
    holds_portc j h q.2.2 := by
  obtain ⟨c, hrd, -, -⟩ := filtered_avg_inv f h pin q hrun
  exact holds_portc_hx710b_read j hj hne h pin c q.2.2 hrd

theorem holds_portc_actuate (j : Nat) (hj : j < 8) (hne : j ≠ MOTOR_DIR_PC) (h : Hw)
    (pressure : ℚ) : holds_portc j h (actuate h pressure) := by
  unfold actuate
  split
  · split
    · exact holds_portc_trans (holds_portc_set j MOTOR_DIR_PC h hj hne)
        (holds_portc_of_quiet (quiet_c_motor_steps _ _))
    · exact holds_portc_trans (holds_portc_clear j MOTOR_DIR_PC h hj hne)
        (holds_portc_of_quiet (quiet_c_motor_steps _ _))
  · exact holds_portc_refl j h

theorem holds_portc_calibrate (j : Nat) (hj : j < 8) (hne : j ≠ HX_SCK) (f : Filter) (h : Hw)
    (r : Nat × Nat × Filter × Hw) (hrun : calibrate f h = some r) :
    holds_portc j h r.2.2.2 := by
  simp only [calibrate] at hrun
  cases h1 : filtered_avg f
      (lcd_write_string (lcd_set_cursor h 0 0) (c_str "Calibrating...")) HX_DT1 with
  | none => simp [h1] at hrun
  | some q =>
    have k1 := holds_portc_filtered_avg j hj hne _ _ _ q h1
    obtain ⟨o1, fa, ha⟩ := q
    simp only [h1] at hrun
    cases h3 : filtered_avg fa ha HX_DT2 with
    | none => simp [h3] at hrun
    | some q2 =>
      have k2 := holds_portc_filtered_avg j hj hne _ _ _ q2 h3
      obtain ⟨o2, fb, hb⟩ := q2
      simp only [h3, Option.some.injEq] at hrun
      subst hrun
      exact holds_portc_trans (holds_portc_trans (holds_portc_trans (holds_portc_trans
        (holds_portc_of_quiet (quiet_c_lcd_set_cursor h 0 0))
        (holds_portc_of_quiet (quiet_c_lcd_write_string _ _))) k1) k2)
        (holds_portc_of_quiet (quiet_c_lcd_command _ _))

/-- A pass of the loop that returns: the reads and the LCD output lead to a
state `hL` in which the actuation for the pressure of the pass runs. -/
theorem loop_body_split (dtostrf : ℚ → List Nat) (offset1 offset2 : Nat) (f : Filter)
    (h : Hw) (r : Filter × Hw) (hrun : loop_body dtostrf offset1 offset2 f h = some r) :
    ∃ p hL, pass_pressure offset1 offset2 f h = some p ∧ r.2 = actuate hL p ∧
      holds_step h hL ∧ ∀ j, j < 8 → j ≠ HX_SCK → holds_portc j h hL := by
  simp only [loop_body] at hrun
  simp only [pass_pressure]
  cases h1 : filtered_avg f (delay_ms h 500) HX_DT1 with
  | none => simp [h1] at hrun
  | some q =>
    have s1 := holds_step_filtered_avg f (delay_ms h 500) HX_DT1 q.1 q.2.1 q.2.2 h1
    have k1 := fun j hj hne => holds_portc_filtered_avg j hj hne _ _ _ q h1
    obtain ⟨r1, fa, ha⟩ := q
    simp only [h1] at hrun
    cases h3 : filtered_avg fa ha HX_DT2 with
    | none => simp [h3] at hrun
    | some q2 =>
      have s2 := holds_step_filtered_avg fa ha HX_DT2 q2.1 q2.2.1 q2.2.2 h3
      have k2 := fun j hj hne => holds_portc_filtered_avg j hj hne _ _ _ q2 h3
      obtain ⟨r2, fb, hb⟩ := q2
      simp only [h3, Option.some.injEq] at hrun
      subst hrun
      refine ⟨pressure_kpa (diff32 r1 offset1 r2 offset2), _, by simp only [h3], rfl, ?_, ?_⟩
      · exact holds_step_trans (holds_step_trans (holds_step_trans (holds_step_trans
          (holds_step_trans (holds_step_trans (holds_step_delay_ms h 500) s1) s2)
          (holds_step_lcd_set_cursor _ _ _)) (holds_step_lcd_write_string _ _))
          (holds_step_lcd_write_string _ _)) (holds_step_lcd_write_string _ _)
      · intro j hj hne
        exact holds_portc_trans (holds_portc_trans (holds_portc_trans (holds_portc_trans
          (holds_portc_trans (holds_portc_trans
          (holds_portc_of_quiet (quiet_c_delay_ms h 500)) (k1 j hj hne)) (k2 j hj hne))
          (holds_portc_of_quiet (quiet_c_lcd_set_cursor _ _ _)))
          (holds_portc_of_quiet (quiet_c_lcd_write_string _ _)))
          (holds_portc_of_quiet (quiet_c_lcd_write_string _ _)))
          (holds_portc_of_quiet (quiet_c_lcd_write_string _ _))

/-! ## The direction line -/

theorem testBit_reg_set_ge (x b i : Nat) (hi : 8 ≤ i) : (reg_set x b).testBit i = false := by
  have h256 : (256 : Nat) = 2 ^ 8 := by norm_num
  rw [reg_set, h256, Nat.testBit_mod_two_pow]
  simp; omega

theorem testBit_reg_clear_ge (x b i : Nat) (hi : 8 ≤ i) : (reg_clear x b).testBit i = false := by
  have h256 : (256 : Nat) = 2 ^ 8 := by norm_num
  rw [reg_clear, h256, Nat.testBit_mod_two_pow]
  simp; omega

/-- Raising the clock again after a pulse writes the same value as before. -/
theorem reg_set_clear_set (p b : Nat) : reg_set (reg_clear (reg_set p b) b) b = reg_set p b := by
  apply Nat.eq_of_testBit_eq
  intro i
  by_cases hi : i < 8
  · rw [testBit_reg_set _ _ _ hi, testBit_reg_clear _ _ _ hi, testBit_reg_set _ _ _ hi]
    by_cases hb : i = b <;> simp [hb]
  · rw [testBit_reg_set_ge _ _ _ (by omega), testBit_reg_set_ge _ _ _ (by omega)]

theorem hx710b_bits_trace (pin : Nat) (bits rest : List Nat) (value : Nat) (h : Hw) (hi : Nat)
    (hin : h.pinc = bits ++ rest) (hhi : reg_set h.portc HX_SCK = hi) :
    ∃ h2, hx710b_bits pin bits.length value h = some (shift_in pin bits value, h2) ∧
      h2.pinc = rest ∧
      h2.trace = ((bits.map (clock_pulse hi (reg_clear hi HX_SCK))).flatten).reverse ++ h.trace ∧
      reg_set h2.portc HX_SCK = hi := by
  induction bits generalizing value h with
  | nil => exact ⟨h, by simp [hx710b_bits, shift_in], by simpa using hin, by simp, hhi⟩
  | cons b bs ih =>
    let h1 : Hw := write_portc { write_portc h (reg_set h.portc HX_SCK) with
      pinc := bs ++ rest,
      trace := Event.inC b :: (write_portc h (reg_set h.portc HX_SCK)).trace }
      (reg_clear (reg_set h.portc HX_SCK) HX_SCK)
    have hstep : hx710b_bit pin value h =
        some (if b &&& (1 <<< pin) ≠ 0 then ((value <<< 1) % 2 ^ 32 + 1) % 2 ^ 32
          else (value <<< 1) % 2 ^ 32, h1) := by
      simp [hx710b_bit, read_pinc, write_portc, hin, h1]
    have hhi1 : reg_set h1.portc HX_SCK = hi := by
      simp only [h1, write_portc]
      rw [reg_set_clear_set, hhi]
    obtain ⟨h2, hrun, hp, htr, hhi2⟩ :=
      ih (if b &&& (1 <<< pin) ≠ 0 then ((value <<< 1) % 2 ^ 32 + 1) % 2 ^ 32
        else (value <<< 1) % 2 ^ 32) h1 rfl hhi1
    refine ⟨h2, ?_, hp, ?_, hhi2⟩
    · simp only [List.length_cons, hx710b_bits, hstep, shift_in]
      exact hrun
    · rw [htr]
      simp [h1, write_portc, clock_pulse, hhi]

/-- The exact accesses of `hx710b_read`. -/
theorem hx710b_read_trace (h : Hw) (pin : Nat) (wait : List Nat) (ready : Nat)
    (bits rest : List Nat) (hwait : ∀ w ∈ wait, w &&& (1 <<< pin) ≠ 0)
    (hready : ready &&& (1 <<< pin) = 0) (hbits : bits.length = 24)
    (hin : h.pinc = wait ++ ready :: (bits ++ rest)) :
    ∃ h2, hx710b_read h pin = some (sign_flip (msb_first (bits.map (line_high pin))), h2) ∧
      h2.pinc = rest ∧
      events_since h h2 = hx710b_read_events h.portc wait ready bits ∧
      h2.portc = reg_clear (reg_set h.portc HX_SCK) HX_SCK := by
  have hw := hx710b_wait_run pin wait ready (bits ++ rest) h.trace hwait hready
  obtain ⟨h2, hrun, hp, htr, hhi⟩ := hx710b_bits_trace pin bits rest 0
    { h with pinc := bits ++ rest,
             trace := Event.inC ready :: ((wait.map Event.inC).reverse ++ h.trace) }
    (reg_set h.portc HX_SCK) rfl rfl
  rw [hbits] at hrun
  have hsh := shift_in_eq pin bits 0 0 (by norm_num) (by omega)
  simp only [Nat.zero_mul, Nat.zero_add] at hsh
  rw [hsh] at hrun
  refine ⟨write_portc (write_portc h2 (reg_set h2.portc HX_SCK))
    (reg_clear (write_portc h2 (reg_set h2.portc HX_SCK)).portc HX_SCK), ?_, ?_, ?_, ?_⟩
  · simp only [hx710b_read, hin, hw, hrun]
  · simpa [write_portc] using hp
  · apply events_since_of_trace
    simp only [write_portc, htr, hhi, hx710b_read_events]
    simp
  · simp only [write_portc, hhi]

theorem clock_polls (ws : List Nat) (rest : List Event) :
    sck_rises false (ws.map Event.inC ++ rest) = sck_rises false rest ∧
      sck_falls false (ws.map Event.inC ++ rest) = sck_falls false rest ∧
      pinc_reads false (ws.map Event.inC ++ rest) =
        ws.map (fun w => (false, w)) ++ pinc_reads false rest := by
  induction ws with
  | nil => simp
  | cons w ws ih =>
    obtain ⟨i1, i2, i3⟩ := ih
    simp [sck_rises, sck_falls, pinc_reads, i1, i2, i3]

theorem clock_pulses (hi lo : Nat) (hhi : hi.testBit HX_SCK = true)
    (hlo : lo.testBit HX_SCK = false) (bits : List Nat) (rest : List Event) :
    sck_rises false ((bits.map (clock_pulse hi lo)).flatten ++ rest) =
        bits.length + sck_rises false rest ∧
      sck_falls false ((bits.map (clock_pulse hi lo)).flatten ++ rest) =
        bits.length + sck_falls false rest ∧
      pinc_reads false ((bits.map (clock_pulse hi lo)).flatten ++ rest) =
        bits.map (fun b => (true, b)) ++ pinc_reads false rest := by
  induction bits with
  | nil => simp
  | cons b bs ih =>
    obtain ⟨i1, i2, i3⟩ := ih
    simp only [List.map_cons, List.flatten_cons, clock_pulse, List.cons_append, List.nil_append,
      sck_rises, sck_falls, pinc_reads, hhi, hlo, i1, i2, i3, List.length_cons]
    refine ⟨?_, ?_, ?_⟩
    · simp; omega
    · simp; omega
    · simpa using i3

/-- The clock line over the accesses of `hx710b_read`, from the clock low. -/
theorem hx710b_read_events_clock (portc : Nat) (wait : List Nat) (ready : Nat)
    (bits : List Nat) :
    sck_rises false (hx710b_read_events portc wait ready bits) = bits.length + 1 ∧
      sck_falls false (hx710b_read_events portc wait ready bits) = bits.length + 1 ∧
      pinc_reads false (hx710b_read_events portc wait ready bits) =
        (wait ++ [ready]).map (fun w => (false, w)) ++ bits.map (fun b => (true, b)) := by
  have hhi : (reg_set portc HX_SCK).testBit HX_SCK = true := by
    rw [testBit_reg_set _ _ _ (by decide)]; simp
  have hlo : (reg_clear (reg_set portc HX_SCK) HX_SCK).testBit HX_SCK = false := by
    rw [testBit_reg_clear _ _ _ (by decide)]; simp
  simp only [hx710b_read_events, List.append_assoc]
  obtain ⟨p1, p2, p3⟩ := clock_polls (wait ++ [ready])
    ((bits.map (clock_pulse (reg_set portc HX_SCK)
      (reg_clear (reg_set portc HX_SCK) HX_SCK))).flatten ++
      [Event.outC (reg_set portc HX_SCK), Event.outC (reg_clear (reg_set portc HX_SCK) HX_SCK)])
  obtain ⟨q1, q2, q3⟩ := clock_pulses _ _ hhi hlo bits
    [Event.outC (reg_set portc HX_SCK), Event.outC (reg_clear (reg_set portc HX_SCK) HX_SCK)]
  rw [p1, p2, p3, q1, q2, q3]
  simp [sck_rises, sck_falls, pinc_reads, hhi, hlo]

/-- C11: started with the clock line low, once the ready check of line 152
sees the data line low (at its first look when the line is ready at the call:
`wait` is empty), `hx710b_read` returns, having driven the clock through
exactly 25 low-to-high-to-low pulses; each of the 24 samples of the data line
is taken while the clock is high, one in each of the first 24 pulses, and the
clock is left low.  The ready checks, all before the first pulse, are the only
other reads; the accesses of the call are exactly `hx710b_read_events`. -/
theorem hx710b_read_clock (h : Hw) (pin : Nat) (wait : List Nat) (ready : Nat)
    (bits rest : List Nat) (hlow : h.portc.testBit HX_SCK = false)
    (hwait : ∀ w ∈ wait, w &&& (1 <<< pin) ≠ 0)
    (hready : ready &&& (1 <<< pin) = 0) (hbits : bits.length = 24)
    (hin : h.pinc = wait ++ ready :: (bits ++ rest)) :
    ∃ value h2, hx710b_read h pin = some (value, h2) ∧
      events_since h h2 = hx710b_read_events h.portc wait ready bits ∧
      sck_rises (h.portc.testBit HX_SCK) (events_since h h2) = 25 ∧
      sck_falls (h.portc.testBit HX_SCK) (events_since h h2) = 25 ∧
      h2.portc.testBit HX_SCK = false ∧
      pinc_reads (h.portc.testBit HX_SCK) (events_since h h2) =
        (wait ++ [ready]).map (fun w => (false, w)) ++ bits.map (fun b => (true, b)) := by
  obtain ⟨h2, hrun, -, hev, hpc⟩ :=
    hx710b_read_trace h pin wait ready bits rest hwait hready hbits hin
  obtain ⟨c1, c2, c3⟩ := hx710b_read_events_clock h.portc wait ready bits
  refine ⟨_, h2, hrun, hev, ?_, ?_, ?_, ?_⟩
  · rw [hlow, hev, c1, hbits]
  · rw [hlow, hev, c2, hbits]
  · rw [hpc, testBit_reg_clear _ _ _ (by decide)]; simp
  · rw [hlow, hev, c3]

set_option maxRecDepth 100000 in
/-- Channel 1 ready at the call, shifting out the word `0x800005`. -/
theorem hx710b_read_clock_witness :
    ∃ value h2, hx710b_read poll_hw HX_DT1 = some (value, h2) ∧
      events_since poll_hw h2 =
        hx710b_read_events poll_hw.portc [] 0 (hx_word HX_DT1 0x800005).tail ∧
      sck_rises (poll_hw.portc.testBit HX_SCK) (events_since poll_hw h2) = 25 ∧
      sck_falls (poll_hw.portc.testBit HX_SCK) (events_since poll_hw h2) = 25 ∧
      h2.portc.testBit HX_SCK = false ∧
      pinc_reads (poll_hw.portc.testBit HX_SCK) (events_since poll_hw h2) =
        (([] : List Nat) ++ [0]).map (fun w => (false, w)) ++
          ((hx_word HX_DT1 0x800005).tail).map (fun b => (true, b)) :=
  hx710b_read_clock poll_hw HX_DT1 [] 0 (hx_word HX_DT1 0x800005).tail []
    (by decide) (by decide) (by decide) (by decide) (by decide)

/-! ## The enable and direction lines across the program -/

theorem holds_portc_events {j : Nat} {h h2 : Hw} (hk : holds_portc j h h2) :
    h2.portc.testBit j = h.portc.testBit j ∧
      ∀ v, Event.outC v ∈ events_since h h2 → v.testBit j = h.portc.testBit j := by
  obtain ⟨evs, htr, hv, hp⟩ := hk
  rw [events_since_of_trace h h2 evs htr]
  exact ⟨hp, hv⟩

theorem holds_portc_loop_body (j : Nat) (hj : j < 8) (hne : j ≠ HX_SCK)
    (hnd : j ≠ MOTOR_DIR_PC) (dtostrf : ℚ → List Nat) (offset1 offset2 : Nat) (f : Filter)
    (h : Hw) (r : Filter × Hw) (hrun : loop_body dtostrf offset1 offset2 f h = some r) :
    holds_portc j h r.2 := by
  obtain ⟨p, hL, -, hr, -, hk⟩ := loop_body_split dtostrf offset1 offset2 f h r hrun
  rw [hr]
  exact holds_portc_trans (hk j hj hne) (holds_portc_actuate j hj hnd hL p)

theorem holds_portc_loop_passes (j : Nat) (hj : j < 8) (hne : j ≠ HX_SCK)
    (hnd : j ≠ MOTOR_DIR_PC) (dtostrf : ℚ → List Nat) (offset1 offset2 n : Nat) (f : Filter)
    (h : Hw) (r : Filter × Hw) (hrun : loop_passes dtostrf offset1 offset2 n f h = some r) :
    holds_portc j h r.2 := by
  induction n generalizing f h with
  | zero =>
    simp only [loop_passes, Option.some.injEq] at hrun
    subst hrun
    exact holds_portc_refl j h
  | succ n ih =>
    simp only [loop_passes] at hrun
    cases hb : loop_body dtostrf offset1 offset2 f h with
    | none => simp [hb] at hrun
    | some q =>
      have k := holds_portc_loop_body j hj hne hnd dtostrf offset1 offset2 f h q hb
      obtain ⟨f1, h1⟩ := q
      simp only [hb] at hrun
      exact holds_portc_trans k (ih f1 h1 hrun)

theorem holds_portc_main (j : Nat) (hj : j < 8) (hne : j ≠ HX_SCK) (hnd : j ≠ MOTOR_DIR_PC)
    (dtostrf : ℚ → List Nat) (n : Nat) (hw : Hw) (r : Filter × Hw)
    (hrun : main dtostrf n hw = some r) :
    holds_portc j (motor_init (hx710b_init (lcd_init hw))) r.2 := by
  simp only [main] at hrun
  cases hc : calibrate Filter.init (motor_init (hx710b_init (lcd_init hw))) with
  | none => simp [hc] at hrun
  | some c =>
    have k := holds_portc_calibrate j hj hne _ _ c hc
    obtain ⟨o1, o2, f, h⟩ := c
    simp only [hc] at hrun
    exact holds_portc_trans k (holds_portc_loop_passes j hj hne hnd dtostrf o1 o2 n f h r hrun)

/-- C13: `motor_init` leaves the enable bit `PC0` low, and in every run of
`main` through calibration and `n` passes of the loop, every value written to
`PORTC` after `motor_init` has `PC0` low, as has `PORTC` at the end. -/
theorem enable_never_deasserted (dtostrf : ℚ → List Nat) (n : Nat) (hw : Hw) (r : Filter × Hw)
    (hrun : main dtostrf n hw = some r) :
    (motor_init (hx710b_init (lcd_init hw))).portc.testBit MOTOR_ENA_PC = false ∧
      r.2.portc.testBit MOTOR_ENA_PC = false ∧
      ∀ v, Event.outC v ∈ events_since (motor_init (hx710b_init (lcd_init hw))) r.2 →
        v.testBit MOTOR_ENA_PC = false := by
  have h0 : (motor_init (hx710b_init (lcd_init hw))).portc.testBit MOTOR_ENA_PC = false := by
    simp only [motor_init, write_portc]
    rw [testBit_reg_clear _ _ _ (by decide)]
    simp
  obtain ⟨k1, k2⟩ := holds_portc_events
    (holds_portc_main MOTOR_ENA_PC (by decide) (by decide) (by decide) dtostrf n hw r hrun)
  refine ⟨h0, by rw [k1, h0], ?_⟩
  intro v hv
  rw [k2 v hv, h0]

set_option maxRecDepth 100000 in
/-- The run on `calm_input`: calibration, a pass that steps the motor, and a
pass in the deadband. -/
theorem enable_never_deasserted_witness :
    (motor_init (hx710b_init (lcd_init (Hw.reset calm_input)))).portc.testBit MOTOR_ENA_PC
        = false ∧
      calm_end.2.portc.testBit MOTOR_ENA_PC = false ∧
      ∀ v, Event.outC v ∈
          events_since (motor_init (hx710b_init (lcd_init (Hw.reset calm_input)))) calm_end.2 →
        v.testBit MOTOR_ENA_PC = false :=
  enable_never_deasserted (fun _ => c_str "25.75") 2 (Hw.reset calm_input) calm_end (by decide!)

/-- C16: a call of `hx710b_read` that returns has written to `PORTC` only
values that agree with the `PORTC` of before on every bit other than the clock
bit `PC4`, and leaves those bits as they were; and a pass of the loop whose
pressure is in the deadband writes to `PORTC` only values with the direction
bit `PC5` at its level of before the pass, and ends with it at that level. -/
theorem direction_persists (h : Hw) (pin value : Nat) (h2 : Hw) (j : Nat) (hj : j < 8)
    (hne : j ≠ HX_SCK) (hrd : hx710b_read h pin = some (value, h2))
    (dtostrf : ℚ → List Nat) (offset1 offset2 : Nat) (f : Filter) (h0 : Hw) (r : Filter × Hw)
    (pr : ℚ) (hrun : loop_body dtostrf offset1 offset2 f h0 = some r)
    (hpr : pass_pressure offset1 offset2 f h0 = some pr) (hlo : -0.10 ≤ pr) (hhi : pr ≤ 0.10) :
    (h2.portc.testBit j = h.portc.testBit j ∧
      ∀ v, Event.outC v ∈ events_since h h2 → v.testBit j = h.portc.testBit j) ∧
    (r.2.portc.testBit MOTOR_DIR_PC = h0.portc.testBit MOTOR_DIR_PC ∧
      ∀ v, Event.outC v ∈ events_since h0 r.2 →
        v.testBit MOTOR_DIR_PC = h0.portc.testBit MOTOR_DIR_PC) := by
  refine ⟨holds_portc_events (holds_portc_hx710b_read j hj hne h pin value h2 hrd), ?_⟩
  obtain ⟨p, hL, hp, hr, -, hk⟩ := loop_body_split dtostrf offset1 offset2 f h0 r hrun
  rw [hpr, Option.some.injEq] at hp
  subst hp
  rw [hr, actuate_deadband hL pr hlo hhi]
  exact holds_portc_events (hk MOTOR_DIR_PC (by decide) (by decide))

set_option maxRecDepth 100000 in
/-- A read with the direction line high, and the second pass of the run on
`calm_input`: its pressure is 0 and the direction line stays high. -/
theorem direction_persists_witness :
    calm_start.2.portc.testBit MOTOR_DIR_PC = true ∧
    ((dir_read.2.portc.testBit MOTOR_DIR_PC = dir_hw.portc.testBit MOTOR_DIR_PC ∧
      ∀ v, Event.outC v ∈ events_since dir_hw dir_read.2 →
        v.testBit MOTOR_DIR_PC = dir_hw.portc.testBit MOTOR_DIR_PC) ∧
    (calm_end.2.portc.testBit MOTOR_DIR_PC = calm_start.2.portc.testBit MOTOR_DIR_PC ∧
      ∀ v, Event.outC v ∈ events_since calm_start.2 calm_end.2 →
        v.testBit MOTOR_DIR_PC = calm_start.2.portc.testBit MOTOR_DIR_PC)) :=
  ⟨by decide!,
    direction_persists dir_hw HX_DT1 dir_read.1 dir_read.2 MOTOR_DIR_PC (by decide) (by decide)
      (by decide!) (fun _ => c_str "25.75") 0 257500 calm_start.1 calm_start.2 calm_end 0
      (by decide!) (by decide!) (by norm_num) (by norm_num)⟩

/-! ## The step pulses -/

theorem actuate_step_low (h : Hw) (pressure : ℚ)
    (hlow : h.portd.testBit MOTOR_STEP_PD = false) :
    (actuate h pressure).portd.testBit MOTOR_STEP_PD = false := by
  unfold actuate
  split
  · have key : ∀ h1 : Hw, h1.portd = h.portd →
        (motor_steps (step_count pressure) h1).portd.testBit MOTOR_STEP_PD = false := by
      intro h1 hp
      by_cases hn : 0 < step_count pressure
      · obtain ⟨-, -, -, -, -, -, -, hd⟩ := motor_steps_pulses (step_count pressure) h1
        exact hd hn
      · have h0 : step_count pressure = 0 := by omega
        rw [h0, motor_steps, hp, hlow]
    split
    · exact key _ rfl
    · exact key _ rfl
  · exact hlow

theorem holds_step_lcd_init (h : Hw) : holds_step h (lcd_init h) := by
  have hddr : ∀ (a : Hw) (b : Hw), b.trace = a.trace → b.portd = a.portd → holds_step a b :=
    fun a b ht hp => ⟨[], by simp [ht], by simp, by rw [hp]⟩
  simp only [lcd_init]
  refine holds_step_trans ?_ (holds_step_lcd_command _ _)
  refine holds_step_trans ?_ (holds_step_lcd_command _ _)
  refine holds_step_trans ?_ (holds_step_lcd_command _ _)
  refine holds_step_trans ?_ (holds_step_lcd_command _ _)
  refine holds_step_trans ?_ (holds_step_delay_us _ _)
  refine holds_step_trans ?_ (holds_step_lcd_send_nibble _ _)
  refine holds_step_trans ?_ (holds_step_delay_us _ _)
  refine holds_step_trans ?_ (holds_step_lcd_send_nibble _ _)
  refine holds_step_trans ?_ (holds_step_delay_us _ _)
  refine holds_step_trans ?_ (holds_step_lcd_send_nibble _ _)
  refine holds_step_trans ?_ (holds_step_delay_ms _ _)
  refine holds_step_trans ?_ (holds_step_lcd_send_nibble _ _)
  refine holds_step_trans ?_ (holds_step_delay_ms _ _)
  refine holds_step_trans ?_ (holds_step_write_portb _ _)
  exact hddr _ _ rfl rfl

theorem holds_step_calibrate (f : Filter) (h : Hw) (r : Nat × Nat × Filter × Hw)
    (hrun : calibrate f h = some r) : holds_step h r.2.2.2 := by
  simp only [calibrate] at hrun
  cases h1 : filtered_avg f
      (lcd_write_string (lcd_set_cursor h 0 0) (c_str "Calibrating...")) HX_DT1 with
  | none => simp [h1] at hrun
  | some q =>
    have k1 := holds_step_filtered_avg _ _ _ q.1 q.2.1 q.2.2 h1
    obtain ⟨o1, fa, ha⟩ := q
    simp only [h1] at hrun
    cases h3 : filtered_avg fa ha HX_DT2 with
    | none => simp [h3] at hrun
    | some q2 =>
      have k2 := holds_step_filtered_avg _ _ _ q2.1 q2.2.1 q2.2.2 h3
      obtain ⟨o2, fb, hb⟩ := q2
      simp only [h3, Option.some.injEq] at hrun
      subst hrun
      exact holds_step_trans (holds_step_trans (holds_step_trans (holds_step_trans
        (holds_step_lcd_set_cursor h 0 0) (holds_step_lcd_write_string _ _)) k1) k2)
        (holds_step_lcd_command _ _)

theorem step_low_loop_passes (dtostrf : ℚ → List Nat) (offset1 offset2 n : Nat) (f : Filter)
    (h : Hw) (r : Filter × Hw) (hlow : h.portd.testBit MOTOR_STEP_PD = false)
    (hrun : loop_passes dtostrf offset1 offset2 n f h = some r) :
    r.2.portd.testBit MOTOR_STEP_PD = false := by
  induction n generalizing f h with
  | zero =>
    simp only [loop_passes, Option.some.injEq] at hrun
    subst hrun
    exact hlow
  | succ n ih =>
    simp only [loop_passes] at hrun
    cases hb : loop_body dtostrf offset1 offset2 f h with
    | none => simp [hb] at hrun
    | some q =>
      obtain ⟨p, hL, -, hr, hs, -⟩ := loop_body_split dtostrf offset1 offset2 f h q hb
      obtain ⟨-, -, -, hlv⟩ := hs
      have hq : q.2.portd.testBit MOTOR_STEP_PD = false := by
        rw [hr]; exact actuate_step_low hL p (by rw [hlv, hlow])
      obtain ⟨f1, h1⟩ := q
      simp only [hb] at hrun
      exact ih f1 h1 hq hrun

/-- In a run of `main` from reset the step line is low when calibration is
done and after every pass of the loop. -/
theorem step_low_main (dtostrf : ℚ → List Nat) (n : Nat) (pinc : List Nat) (r : Filter × Hw)
    (hrun : main dtostrf n (Hw.reset pinc) = some r) :
    r.2.portd.testBit MOTOR_STEP_PD = false := by
  simp only [main] at hrun
  cases hc : calibrate Filter.init (motor_init (hx710b_init (lcd_init (Hw.reset pinc)))) with
  | none => simp [hc] at hrun
  | some c =>
    have k := holds_step_calibrate _ _ c hc
    obtain ⟨o1, o2, f, h⟩ := c
    simp only [hc] at hrun
    obtain ⟨-, -, -, hlv⟩ := k
    obtain ⟨-, -, -, hli⟩ := holds_step_lcd_init (Hw.reset pinc)
    have h0 : (motor_init (hx710b_init (lcd_init (Hw.reset pinc)))).portd.testBit MOTOR_STEP_PD
        = false := by
      have : (motor_init (hx710b_init (lcd_init (Hw.reset pinc)))).portd =
          (lcd_init (Hw.reset pinc)).portd := rfl
      rw [this, hli]
      show (0 : Nat).testBit MOTOR_STEP_PD = false
      decide
    exact step_low_loop_passes dtostrf o1 o2 n f h r (by rw [hlv, h0]) hrun

end PlasmaControl
